import Mathlib

/-!
# passgen: charset construction and sampling

A shallow embedding of `cmd/passgen/main.go`.

* A Go `string` is a sequence of bytes (`GoString`); a `rune` is an `int32` (`Rune`).
* `for _, r := range s` decodes UTF-8 (`rangeRunes`, built on `decodeRune`, the
  behaviour of `utf8.DecodeRuneInString`); `strings.Builder.WriteRune` encodes
  (`appendRune`, the behaviour of `utf8.AppendRune`).
* `map[rune]bool` is a total function `Rune → Bool`: a missing key reads as `false`.
* `rand.Int(rand.Reader, max)` is an oracle: a stream of draws, each either a
  number or an error.
-/

namespace Passgen

/-! ## Go values -/

/-- Go `rune` (an `int32`). -/
abbrev Rune := Int

/-- Go `string`: a read-only sequence of bytes (each below 256). -/
abbrev GoString := List Nat

/-- Go `map[rune]bool`; reading a missing key gives the zero value `false`. -/
abbrev RuneSet := Rune → Bool

/-- The literal `map[rune]bool{}`. -/
def emptySet : RuneSet := fun _ => false

/-- The assignment `m[r] = true`. -/
def setTrue (m : RuneSet) (r : Rune) : RuneSet := fun x => if x = r then true else m x

/-! ## UTF-8 (package `unicode/utf8`) -/

/-- Constant `utf8.RuneError`, U+FFFD. -/
def RuneError : Rune := (0xFFFD : Int)

/-- Constant `utf8.MaxRune`, U+10FFFF. -/
def MaxRune : Nat := 0x10FFFF

/-- A Unicode scalar value: in range and not a surrogate half. -/
def ValidRune (r : Int) : Prop := 0 ≤ r ∧ r ≤ 0x10FFFF ∧ ¬ (0xD800 ≤ r ∧ r ≤ 0xDFFF)

instance (r : Int) : Decidable (ValidRune r) := by unfold ValidRune; infer_instance

/-- Entry of the table `utf8.first` for a lead byte. -/
inductive First where
  | ascii : First
  | invalid : First
  | multi (size lo hi : Nat) : First
deriving DecidableEq

/-- Table `utf8.first` together with `utf8.acceptRanges`: for a lead byte, whether it
is ASCII, invalid, or starts a sequence of `size` bytes whose second byte must lie in
`[lo, hi]`. -/
def first (b : Nat) : First :=
  if b < 0x80 then First.ascii
  else if b < 0xC2 then First.invalid
  else if b < 0xE0 then First.multi 2 0x80 0xBF
  else if b = 0xE0 then First.multi 3 0xA0 0xBF
  else if b < 0xED then First.multi 3 0x80 0xBF
  else if b = 0xED then First.multi 3 0x80 0x9F
  else if b < 0xF0 then First.multi 3 0x80 0xBF
  else if b = 0xF0 then First.multi 4 0x90 0xBF
  else if b < 0xF4 then First.multi 4 0x80 0xBF
  else if b = 0xF4 then First.multi 4 0x80 0x8F
  else First.invalid

/-- Function `utf8.DecodeRuneInString`, which is also how a `range` loop reads a
string: the first rune of `s` and its width in bytes; an invalid or incomplete
sequence reads as `RuneError` of width 1. Masks and shifts are written arithmetically: `b & 0x3F` is `b % 64`, `x << 6` is
`x * 64`, and `|` of disjoint bit fields is `+`. -/
def decodeRune (s : GoString) : Rune × Nat :=
  match s with
  | [] => (RuneError, 0)
  | s0 :: t =>
    match first s0 with
    | First.ascii => ((s0 : Int), 1)
    | First.invalid => (RuneError, 1)
    | First.multi sz lo hi =>
      if t.length + 1 < sz then (RuneError, 1)
      else
        match t with
        | [] => (RuneError, 1)
        | s1 :: t1 =>
          if s1 < lo ∨ hi < s1 then (RuneError, 1)
          else if sz ≤ 2 then ((((s0 % 32) * 64 + s1 % 64 : Nat) : Int), 2)
          else
            match t1 with
            | [] => (RuneError, 1)
            | s2 :: t2 =>
              if s2 < 0x80 ∨ 0xBF < s2 then (RuneError, 1)
              else if sz ≤ 3 then
                ((((s0 % 16) * 4096 + (s1 % 64) * 64 + s2 % 64 : Nat) : Int), 3)
              else
                match t2 with
                | [] => (RuneError, 1)
                | s3 :: _ =>
                  if s3 < 0x80 ∨ 0xBF < s3 then (RuneError, 1)
                  else
                    ((((s0 % 8) * 262144 + (s1 % 64) * 4096 + (s2 % 64) * 64 + s3 % 64
                        : Nat) : Int), 4)

/-- Function `utf8.AppendRune` applied to an empty buffer: the UTF-8 bytes of `r`.
A rune that is negative, above `MaxRune` or a surrogate half is written as U+FFFD.
`uint32(r)` is `r % 2^32`. -/
def appendRune (r : Rune) : GoString :=
  let i : Nat := (r % 2 ^ 32).toNat
  if i ≤ 0x7F then [i]
  else if i ≤ 0x7FF then [0xC0 + i / 64, 0x80 + i % 64]
  else if i > MaxRune ∨ (0xD800 ≤ i ∧ i ≤ 0xDFFF) then [0xEF, 0xBF, 0xBD]
  else if i ≤ 0xFFFF then [0xE0 + i / 4096, 0x80 + i / 64 % 64, 0x80 + i % 64]
  else [0xF0 + i / 262144, 0x80 + i / 4096 % 64, 0x80 + i / 64 % 64, 0x80 + i % 64]

/-- Loop `for _, r := range s`, with `skip` bytes of the current rune still to pass:
the runes of `s` in order. -/
def rangeRunesFrom : Nat → GoString → List Rune
  | _, [] => []
  | skip + 1, _ :: t => rangeRunesFrom skip t
  | 0, b :: t => (decodeRune (b :: t)).1 :: rangeRunesFrom ((decodeRune (b :: t)).2 - 1) t

/-- The sequence of runes visited by `for _, r := range s`. -/
def rangeRunes (s : GoString) : List Rune := rangeRunesFrom 0 s

/-- Conversion `string(rs)` of a `[]rune`, also what successive `WriteRune` calls
build: the concatenated UTF-8 encodings. -/
def runesToString : List Rune → GoString
  | [] => []
  | r :: rs => appendRune r ++ runesToString rs

/-- A string literal of ASCII characters as bytes. -/
def lit (s : String) : GoString := s.toList.map Char.toNat

/-! ## Helpers of `main.go` -/

/-- Function `strings.ReplaceAll(s, old, new)` for a non-empty `old`, scanning left
to right with `skip` bytes of the current match still to pass. -/
def replaceAllFrom (old new : GoString) : Nat → GoString → GoString
  | _, [] => []
  | skip + 1, _ :: t => replaceAllFrom old new skip t
  | 0, b :: t =>
    if old.isPrefixOf (b :: t) then new ++ replaceAllFrom old new (old.length - 1) t
    else b :: replaceAllFrom old new 0 t

/-- Function `strings.ReplaceAll` (non-empty `old`). -/
def replaceAll (s old new : GoString) : GoString := replaceAllFrom old new 0 s

/-- Function `stripNewlines`. -/
def stripNewlines (s : GoString) : GoString :=
  let s := replaceAll s [13, 10] []
  let s := replaceAll s [10] []
  let s := replaceAll s [13] []
  s

/-- Function `splitFlagEq`: split at the first `=` (byte 61), which stays in `rest`. -/
def splitFlagEq (s : GoString) : GoString × GoString × Bool :=
  let i := s.indexOf 61
  if i < s.length then (s.take i, s.drop i, true)
  else (s, [], false)

/-- The string that one iteration of the loop of `normalizeLongOpts` appends to `out`
for the argument `a`. -/
def normalizeArg (known : GoString → Bool) (a : GoString) : GoString :=
  if List.isPrefixOf [45, 45] a then
    let trim := a.drop 2
    let (name, rst, hasEq) := splitFlagEq trim
    if known name then
      if hasEq then [45] ++ name ++ rst
      else [45] ++ name
    else a
  else a

/-- Loop of `normalizeLongOpts` over the arguments still to visit; `known` is the
`map[string]bool` of flag names (a missing key reads as `false`); byte 45 is `-`. -/
def normalizeLongOptsLoop (known : GoString → Bool) :
    List GoString → List GoString → List GoString
  | [], out => out
  | a :: rest, out =>
    if List.isPrefixOf [45, 45] a then
      let trim := a.drop 2
      let (name, rst, hasEq) := splitFlagEq trim
      if known name then
        if hasEq then normalizeLongOptsLoop known rest (out ++ [[45] ++ name ++ rst])
        else normalizeLongOptsLoop known rest (out ++ [[45] ++ name])
      else normalizeLongOptsLoop known rest (out ++ [a])
    else normalizeLongOptsLoop known rest (out ++ [a])

/-- Function `normalizeLongOpts`. -/
def normalizeLongOpts (args : List GoString) (known : GoString → Bool) : List GoString :=
  normalizeLongOptsLoop known args []

/-- The table of known flag names that `main` passes to `normalizeLongOpts`. -/
def knownFlags (name : GoString) : Bool :=
  decide (name ∈ [lit "help", lit "length", lit "l", lit "number", lit "n",
    lit "add", lit "a", lit "delete", lit "d"])

/-- Body of the loop of `uniqueRunes` over the runes still to visit, on the state
`(seen, out)`. -/
def uniqueRunesLoop : List Rune → RuneSet → List Rune → List Rune
  | [], _, out => out
  | r :: rs, seen, out =>
    if !seen r then uniqueRunesLoop rs (setTrue seen r) (out ++ [r])
    else uniqueRunesLoop rs seen out

/-- Function `uniqueRunes`. -/
def uniqueRunes (s : GoString) : List Rune :=
  uniqueRunesLoop (rangeRunes s) emptySet []

/-- Loop of `toSet` over the runes still to visit. -/
def toSetLoop : List Rune → RuneSet → RuneSet
  | [], m => m
  | r :: rs, m => toSetLoop rs (setTrue m r)

/-- Function `toSet`. -/
def toSet (s : GoString) : RuneSet := toSetLoop (rangeRunes s) emptySet

/-- Loop of `subtractRunes` over the runes of `base` still to visit. -/
def subtractRunesLoop (remove : RuneSet) : List Rune → List Rune → List Rune
  | [], out => out
  | r :: rs, out =>
    if !remove r then subtractRunesLoop remove rs (out ++ [r])
    else subtractRunesLoop remove rs out

/-- Function `subtractRunes`. -/
def subtractRunes (base : List Rune) (remove : RuneSet) : List Rune :=
  subtractRunesLoop remove base []

/-- The constant `defaultCharset` of `main`. -/
def defaultCharset : GoString :=
  lit "abcdefghijklmnopqrstuvwxyzABCDEFGHIJKLMNOPQRSTUVWXYZ0123456789"

/-- The `switch` of `main` that builds `charset` from the flags and `provided`. -/
def buildCharset (add del : Bool) (provided : GoString) : List Rune :=
  if add then uniqueRunes (defaultCharset ++ provided)
  else if del then subtractRunes (uniqueRunes defaultCharset) (toSet provided)
  else if provided ≠ [] then uniqueRunes provided
  else uniqueRunes defaultCharset

/-! ## Random source and `genPassword` -/

/-- Go `error` value, identified by its message. -/
abbrev GoError := String

/-- Result of one call `rand.Int(rand.Reader, max)`: a number or an error. -/
inductive Draw where
  | value (n : Nat) : Draw
  | failure (e : GoError) : Draw
deriving DecidableEq

/-- The random source `rand.Reader` seen through `rand.Int`: the result of the
`i`-th call. -/
abbrev RandReader := Nat → Draw

/-- What has been asked of the random source so far: the number of calls and the
bound passed to each. -/
structure RandState where
  calls : Nat
  bounds : List Int
deriving DecidableEq

/-- The random source before any call. -/
def RandState.init : RandState := ⟨0, []⟩

/-- Call `rand.Int(rand.Reader, max)`; `none` is the panic of `rand.Int` on
`max <= 0`. -/
def randInt (rd : RandReader) (st : RandState) (max : Int) : Option (Draw × RandState) :=
  if max ≤ 0 then none
  else some (rd st.calls, ⟨st.calls + 1, st.bounds ++ [max]⟩)

/-- The pair `(string, error)` returned by `genPassword`. -/
structure GenResult where
  pw : GoString
  err : Option GoError
deriving DecidableEq

/-- Loop of `genPassword` with `k` iterations to go and `b` the bytes written to the
builder so far; `none` is a run-time panic (`rand.Int` on a non-positive bound, or
`charset[n]` out of range). -/
def genPasswordLoop (charset : List Rune) (rd : RandReader) :
    Nat → GoString → RandState → Option (GenResult × RandState)
  | 0, b, st => some (⟨b, none⟩, st)
  | k + 1, b, st =>
    match randInt rd st (charset.length : Int) with
    | none => none
    | some (Draw.failure e, st1) => some (⟨[], some e⟩, st1)
    | some (Draw.value n, st1) =>
      match charset[n]? with
      | none => none
      | some r => genPasswordLoop charset rd k (b ++ appendRune r) st1

/-- Function `genPassword`; `none` is a run-time panic (`b.Grow` on a negative
length, or one of the loop). -/
def genPassword (length : Int) (charset : List Rune) (rd : RandReader) (st : RandState) :
    Option (GenResult × RandState) :=
  if length < 0 then none
  else genPasswordLoop charset rd length.toNat [] st

/-! ## `main` after flag parsing -/

/-- The values left by a successful `fs.Parse`: the four flags and `fs.Args()`. -/
structure Parsed where
  length : Int
  number : Int
  add : Bool
  del : Bool
  args : List GoString
deriving DecidableEq

/-- The two diagnostics `main` prints itself, and the one carrying an error. -/
inductive Diagnostic where
  | addAndDelete : Diagnostic
  | emptyCharset : Diagnostic
  | randomSource (e : GoError) : Diagnostic
deriving DecidableEq

/-- Observable steps of `main`. -/
inductive Event where
  | built (charset : List Rune) : Event
  | generate (length : Int) (charset : List Rune) : Event
  | stdoutLine (pw : GoString) : Event
  | stderrLine (d : Diagnostic) : Event
deriving DecidableEq

/-- End of a run: the exit code and the steps taken, in order. -/
structure RunResult where
  exitCode : Nat
  trace : List Event
deriving DecidableEq

/-- Function `strings.Join(elems, "")`. -/
def joinArgs : List GoString → GoString
  | [] => []
  | a :: rest => a ++ joinArgs rest

/-- The string `provided` of `main`: what `readStdin` returned, followed by the
joined positional arguments, with newlines stripped. -/
def providedOf (stdin : GoString) (args : List GoString) : GoString :=
  let provided := stdin
  let leftover := joinArgs args
  let provided := if leftover ≠ [] then provided ++ leftover else provided
  stripNewlines provided

/-- The generation loop of `main` with `k` passwords to go; `none` is a panic. -/
def mainLoop (length : Int) (charset : List Rune) (rd : RandReader) :
    Nat → RandState → List Event → Option RunResult
  | 0, _, tr => some ⟨0, tr⟩
  | k + 1, st, tr =>
    match genPassword length charset rd st with
    | none => none
    | some (⟨pw, none⟩, st1) =>
      mainLoop length charset rd k st1
        (tr ++ [Event.generate length charset, Event.stdoutLine pw])
    | some (⟨_, some e⟩, _) =>
      some ⟨1, tr ++ [Event.generate length charset,
        Event.stderrLine (Diagnostic.randomSource e)]⟩

/-- Function `main` from the validation of the flags on; `stdin` is what `readStdin`
returns; `none` is a panic. -/
def mainParsed (p : Parsed) (stdin : GoString) (rd : RandReader) : Option RunResult :=
  if p.add && p.del then some ⟨2, [Event.stderrLine Diagnostic.addAndDelete]⟩
  else
    let length := if p.length < 1 then 1 else p.length
    let number := if p.number < 1 then 1 else p.number
    let provided := providedOf stdin p.args
    let charset := buildCharset p.add p.del provided
    if charset.length = 0 then
      some ⟨2, [Event.built charset, Event.stderrLine Diagnostic.emptyCharset]⟩
    else mainLoop length charset rd number.toNat RandState.init [Event.built charset]

/-- Bytes written to standard output: each password followed by a newline
(`fmt.Println`). -/
def stdoutOf : List Event → GoString
  | [] => []
  | Event.stdoutLine pw :: rest => pw ++ [10] ++ stdoutOf rest
  | _ :: rest => stdoutOf rest

/-! ## Reference definitions, following the specification's words -/

/-- Deduplication as the specification words it: a character is kept the first time
it is seen, and every later occurrence of it is discarded. -/
def keepFirst : List Rune → List Rune
  | [] => []
  | r :: rs => r :: (keepFirst rs).filter (fun x => decide (x ≠ r))

/-- The characters of the default alphabet, in order: lowercase, uppercase, digits. -/
def defaultAlphabet : List Rune :=
  (lit "abcdefghijklmnopqrstuvwxyz" ++ lit "ABCDEFGHIJKLMNOPQRSTUVWXYZ" ++ lit "0123456789").map
    Int.ofNat

/-- Chance that a uniformly drawn index in `[0, |charset|)` selects the character
`c`: the number of indices holding `c`, over the number of indices. -/
def selectProb (charset : List Rune) (c : Rune) : ℚ :=
  (((List.range charset.length).filter (fun i => decide (charset[i]? = some c))).length : ℚ)
    / (charset.length : ℚ)

/-- The index carried by a draw (`0` for a failed draw, which carries none). -/
def Draw.index : Draw → Nat
  | Draw.value n => n
  | Draw.failure _ => 0

/-- The characters selected by `k` successive draws starting at call number `start`:
the `j`-th is `charset[d]` for `d` the index of draw `start + j`. -/
def picked (charset : List Rune) (rd : RandReader) (start k : Nat) : List Rune :=
  (List.range k).map (fun j => charset.getD (rd (start + j)).index 0)

/-- The draws from call number `start` up to `start + k` all succeed with an index
below `n`. -/
def DrawsBelow (rd : RandReader) (start k n : Nat) : Prop :=
  ∀ j, j < k → ∃ d, rd (start + j) = Draw.value d ∧ d < n

/-- Text printed by successive `fmt.Println(pw)`: every password followed by a
newline (byte 10). -/
def printLines : List GoString → GoString
  | [] => []
  | pw :: rest => pw ++ [10] ++ printLines rest

/-- The passwords of `k` successive complete calls of `genPassword` with length `len`,
the first of which starts at call number `start` of the random source: each is the
encoding of the `len` characters its own draws select. -/
def passwordsFrom (charset : List Rune) (rd : RandReader) (len : Nat) : Nat → Nat → List GoString
  | _, 0 => []
  | start, k + 1 =>
    runesToString (picked charset rd start len) ::
      passwordsFrom charset rd len (start + len) k

/-- The steps of `main` for a list of completed passwords: for each, the call of
`genPassword` and the line printed. -/
def okEvents (length : Int) (charset : List Rune) : List GoString → List Event
  | [] => []
  | pw :: rest =>
    Event.generate length charset :: Event.stdoutLine pw :: okEvents length charset rest

/-- The successful draws of the random source are below `n`, as `rand.Int` promises
for the bound `n`; draws may fail. -/
def DrawsInRange (rd : RandReader) (n : Nat) : Prop :=
  ∀ i d, rd i = Draw.value d → d < n

/-! ## UTF-8: decoding and encoding -/


theorem first_ascii {b : Nat} (h : b < 0x80) : first b = First.ascii := by
  unfold first; simp [h]

theorem first_two {b : Nat} (h1 : 0xC2 ≤ b) (h2 : b < 0xE0) :
    first b = First.multi 2 0x80 0xBF := by
  unfold first; split_ifs <;> first | rfl | omega

theorem first_three {b : Nat} (h1 : 0xE1 ≤ b) (h2 : b < 0xF0) (h3 : b ≠ 0xED) :
    first b = First.multi 3 0x80 0xBF := by
  unfold first; split_ifs <;> first | rfl | omega

theorem first_four {b : Nat} (h1 : 0xF1 ≤ b) (h2 : b < 0xF4) :
    first b = First.multi 4 0x80 0xBF := by
  unfold first; split_ifs <;> first | rfl | omega

theorem first_eq_ascii {b : Nat} (h : first b = First.ascii) : b < 0x80 := by
  unfold first at h; split_ifs at h; assumption

theorem multi_inj {a b c sz lo hi : Nat} (h : First.multi a b c = First.multi sz lo hi) :
    sz = a ∧ lo = b ∧ hi = c := by
  injection h with h1 h2 h3
  exact ⟨h1.symm, h2.symm, h3.symm⟩

theorem first_eq_multi {b sz lo hi : Nat} (h : first b = First.multi sz lo hi) :
    (sz = 2 ∧ 0xC2 ≤ b ∧ b ≤ 0xDF ∧ lo = 0x80 ∧ hi = 0xBF) ∨
    (sz = 3 ∧ 0xE0 ≤ b ∧ b ≤ 0xEF ∧ 0x80 ≤ lo ∧ hi ≤ 0xBF ∧
      (b = 0xE0 → lo = 0xA0) ∧ (b = 0xED → hi = 0x9F)) ∨
    (sz = 4 ∧ 0xF0 ≤ b ∧ b ≤ 0xF4 ∧ 0x80 ≤ lo ∧ hi ≤ 0xBF ∧
      (b = 0xF0 → lo = 0x90) ∧ (b = 0xF4 → hi = 0x8F)) := by
  unfold first at h
  by_cases c1 : b < 0x80
  · rw [if_pos c1] at h; injection h
  rw [if_neg c1] at h
  by_cases c2 : b < 0xC2
  · rw [if_pos c2] at h; injection h
  rw [if_neg c2] at h
  by_cases c3 : b < 0xE0
  · rw [if_pos c3] at h; have := multi_inj h; omega
  rw [if_neg c3] at h
  by_cases c4 : b = 0xE0
  · rw [if_pos c4] at h; have := multi_inj h; omega
  rw [if_neg c4] at h
  by_cases c5 : b < 0xED
  · rw [if_pos c5] at h; have := multi_inj h; omega
  rw [if_neg c5] at h
  by_cases c6 : b = 0xED
  · rw [if_pos c6] at h; have := multi_inj h; omega
  rw [if_neg c6] at h
  by_cases c7 : b < 0xF0
  · rw [if_pos c7] at h; have := multi_inj h; omega
  rw [if_neg c7] at h
  by_cases c8 : b = 0xF0
  · rw [if_pos c8] at h; have := multi_inj h; omega
  rw [if_neg c8] at h
  by_cases c9 : b < 0xF4
  · rw [if_pos c9] at h; have := multi_inj h; omega
  rw [if_neg c9] at h
  by_cases c10 : b = 0xF4
  · rw [if_pos c10] at h; have := multi_inj h; omega
  rw [if_neg c10] at h
  injection h

theorem validRune_ofNat {i : Nat} :
    ValidRune (i : Int) ↔ i ≤ 0x10FFFF ∧ ¬ (0xD800 ≤ i ∧ i ≤ 0xDFFF) := by
  unfold ValidRune; omega

theorem validRune_runeError : ValidRune RuneError := by decide

/-- Every rune produced by the decoder is a Unicode scalar value. -/
theorem decodeRune_valid (s : GoString) : ValidRune (decodeRune s).1 := by
  rcases s with _ | ⟨s0, t⟩
  · exact validRune_runeError
  · cases h : first s0 with
    | ascii =>
      have := first_eq_ascii h
      simp only [decodeRune, h]
      rw [validRune_ofNat]; omega
    | invalid => simp only [decodeRune, h]; exact validRune_runeError
    | multi sz lo hi =>
      have hm := first_eq_multi h
      rcases t with _ | ⟨s1, _ | ⟨s2, _ | ⟨s3, t3⟩⟩⟩ <;> simp only [decodeRune, h] <;>
        split_ifs <;>
        first
          | exact validRune_runeError
          | (rw [validRune_ofNat]; omega)


theorem appendRune_ofNat (i : Nat) (h : i < 2 ^ 32) :
    appendRune (i : Int) =
      if i ≤ 0x7F then [i]
      else if i ≤ 0x7FF then [0xC0 + i / 64, 0x80 + i % 64]
      else if i > MaxRune ∨ (0xD800 ≤ i ∧ i ≤ 0xDFFF) then [0xEF, 0xBF, 0xBD]
      else if i ≤ 0xFFFF then [0xE0 + i / 4096, 0x80 + i / 64 % 64, 0x80 + i % 64]
      else [0xF0 + i / 262144, 0x80 + i / 4096 % 64, 0x80 + i / 64 % 64, 0x80 + i % 64] := by
  have e : (((i : Int) % 2 ^ 32).toNat) = i := by
    have : ((i : Int) % 2 ^ 32) = (i : Int) := Int.emod_eq_of_lt (by omega) (by omega)
    rw [this]; simp
  simp only [appendRune, e]

/-- Decoding the encoding of a scalar value gives it back, with its width. -/
theorem decodeRune_appendRune (r : Rune) (hr : ValidRune r) (t : GoString) :
    decodeRune (appendRune r ++ t) = (r, (appendRune r).length) := by
  obtain ⟨i, rfl⟩ : ∃ i : Nat, r = (i : Int) := ⟨r.toNat, (Int.toNat_of_nonneg hr.1).symm⟩
  rw [validRune_ofNat] at hr
  rw [appendRune_ofNat i (by omega)]
  by_cases c1 : i ≤ 0x7F
  · rw [if_pos c1]
    simp only [List.cons_append, List.nil_append, decodeRune, first_ascii (show i < 0x80 by omega),
      List.length_singleton]
  rw [if_neg c1]
  by_cases c2 : i ≤ 0x7FF
  · rw [if_pos c2]
    have hf := first_two (show 0xC2 ≤ 0xC0 + i / 64 by omega) (show 0xC0 + i / 64 < 0xE0 by omega)
    simp only [List.cons_append, List.nil_append, decodeRune, hf]
    rw [if_neg (by simp), if_neg (by omega), if_pos (by omega)]
    simp only [List.length_cons, List.length_nil, Prod.mk.injEq, and_true]
    congr 1
    omega
  rw [if_neg c2, if_neg (by simp only [MaxRune]; omega)]
  by_cases c3 : i ≤ 0xFFFF
  · rw [if_pos c3]
    by_cases e0 : i / 4096 = 0
    · have hf : first (0xE0 + i / 4096) = First.multi 3 0xA0 0xBF := by rw [e0]; rfl
      simp only [List.cons_append, List.nil_append, decodeRune, hf]
      rw [if_neg (by simp), if_neg (by omega), if_neg (by omega), if_neg (by omega),
        if_pos (by omega)]
      simp only [List.length_cons, List.length_nil, Prod.mk.injEq, and_true]
      congr 1
      omega
    by_cases e13 : i / 4096 = 13
    · have hf : first (0xE0 + i / 4096) = First.multi 3 0x80 0x9F := by rw [e13]; rfl
      simp only [List.cons_append, List.nil_append, decodeRune, hf]
      rw [if_neg (by simp), if_neg (by omega), if_neg (by omega), if_neg (by omega),
        if_pos (by omega)]
      simp only [List.length_cons, List.length_nil, Prod.mk.injEq, and_true]
      congr 1
      omega
    · have hf := first_three (show 0xE1 ≤ 0xE0 + i / 4096 by omega)
        (show 0xE0 + i / 4096 < 0xF0 by omega) (show 0xE0 + i / 4096 ≠ 0xED by omega)
      simp only [List.cons_append, List.nil_append, decodeRune, hf]
      rw [if_neg (by simp), if_neg (by omega), if_neg (by omega), if_neg (by omega),
        if_pos (by omega)]
      simp only [List.length_cons, List.length_nil, Prod.mk.injEq, and_true]
      congr 1
      omega
  rw [if_neg c3]
  by_cases e0 : i / 262144 = 0
  · have hf : first (0xF0 + i / 262144) = First.multi 4 0x90 0xBF := by rw [e0]; rfl
    simp only [List.cons_append, List.nil_append, decodeRune, hf]
    rw [if_neg (by simp), if_neg (by omega), if_neg (by omega), if_neg (by omega),
      if_neg (by omega), if_neg (by omega)]
    simp only [List.length_cons, List.length_nil, Prod.mk.injEq, and_true]
    congr 1
    omega
  by_cases e4 : i / 262144 = 4
  · have hf : first (0xF0 + i / 262144) = First.multi 4 0x80 0x8F := by rw [e4]; rfl
    simp only [List.cons_append, List.nil_append, decodeRune, hf]
    rw [if_neg (by simp), if_neg (by omega), if_neg (by omega), if_neg (by omega),
      if_neg (by omega), if_neg (by omega)]
    simp only [List.length_cons, List.length_nil, Prod.mk.injEq, and_true]
    congr 1
    omega
  · have hf := first_four (show 0xF1 ≤ 0xF0 + i / 262144 by omega)
      (show 0xF0 + i / 262144 < 0xF4 by omega)
    simp only [List.cons_append, List.nil_append, decodeRune, hf]
    rw [if_neg (by simp), if_neg (by omega), if_neg (by omega), if_neg (by omega),
      if_neg (by omega), if_neg (by omega)]
    simp only [List.length_cons, List.length_nil, Prod.mk.injEq, and_true]
    congr 1
    omega


/-! ## The rune sequence of a string -/

theorem rangeRunesFrom_skip (pre t : GoString) :
    rangeRunesFrom pre.length (pre ++ t) = rangeRunesFrom 0 t := by
  induction pre with
  | nil => rfl
  | cons b pre ih => simpa [rangeRunesFrom] using ih

theorem rangeRunesFrom_valid (k : Nat) (s : GoString) :
    ∀ r ∈ rangeRunesFrom k s, ValidRune r := by
  induction s generalizing k with
  | nil => intro r hr; simp [rangeRunesFrom] at hr
  | cons b t ih =>
    cases k with
    | zero =>
      intro r hr
      simp only [rangeRunesFrom, List.mem_cons] at hr
      rcases hr with rfl | hr
      · exact decodeRune_valid _
      · exact ih _ r hr
    | succ k =>
      intro r hr
      simp only [rangeRunesFrom] at hr
      exact ih _ r hr

/-- Every rune visited by a `range` loop over a string is a Unicode scalar value. -/
theorem rangeRunes_valid (s : GoString) : ∀ r ∈ rangeRunes s, ValidRune r :=
  rangeRunesFrom_valid 0 s

theorem appendRune_ne_nil (r : Rune) : appendRune r ≠ [] := by
  unfold appendRune
  simp only []
  split_ifs <;> simp

/-- A `range` loop over an encoded scalar value followed by `t` visits that value
and then the runes of `t`. -/
theorem rangeRunes_appendRune (r : Rune) (hr : ValidRune r) (t : GoString) :
    rangeRunes (appendRune r ++ t) = r :: rangeRunes t := by
  have hd := decodeRune_appendRune r hr t
  obtain ⟨b, u, hu⟩ : ∃ b u, appendRune r = b :: u := by
    cases h : appendRune r with
    | nil => exact absurd h (appendRune_ne_nil r)
    | cons b u => exact ⟨b, u, rfl⟩
  rw [hu] at hd ⊢
  simp only [rangeRunes, List.cons_append, rangeRunesFrom, List.append_eq] at hd ⊢
  rw [hd]
  simp only [List.length_cons, Nat.add_sub_cancel]
  rw [rangeRunesFrom_skip]

/-- Reading back the string built from scalar values gives the same values. -/
theorem rangeRunes_runesToString (rs : List Rune) (h : ∀ r ∈ rs, ValidRune r) :
    rangeRunes (runesToString rs) = rs := by
  induction rs with
  | nil => rfl
  | cons r rs ih =>
    simp only [runesToString]
    rw [rangeRunes_appendRune r (h r (List.mem_cons_self _ _)), ih]
    intro x hx
    exact h x (List.mem_cons_of_mem _ hx)

/-- A `range` loop over ASCII bytes followed by `t` visits each byte as one rune. -/
theorem rangeRunes_ascii_append (a t : GoString) (ha : ∀ b ∈ a, b < 0x80) :
    rangeRunes (a ++ t) = a.map Int.ofNat ++ rangeRunes t := by
  induction a with
  | nil => rfl
  | cons b a ih =>
    have hb : b < 0x80 := ha b (List.mem_cons_self _ _)
    have ih2 := ih (fun x hx => ha x (List.mem_cons_of_mem _ hx))
    simp only [rangeRunes, List.cons_append, rangeRunesFrom, decodeRune, first_ascii hb,
      Nat.sub_self, List.map_cons, Int.ofNat_eq_coe, List.append_eq] at ih2 ⊢
    rw [ih2]


/-! ## Deduplication -/

theorem keepFirst_filter (p : Rune → Bool) (l : List Rune) :
    keepFirst (l.filter p) = (keepFirst l).filter p := by
  induction l with
  | nil => rfl
  | cons x xs ih =>
    by_cases hx : p x = true
    · simp only [List.filter_cons_of_pos hx, keepFirst, ih, List.filter_filter]
      congr 1
      apply List.filter_congr
      intro y _
      exact Bool.and_comm _ _
    · simp only [List.filter_cons_of_neg hx, keepFirst, ih, List.filter_filter]
      apply List.filter_congr
      intro y _
      by_cases hy : p y = true
      · have : y ≠ x := fun e => hx (e ▸ hy)
        simp [hy, this]
      · simp [hy]

theorem mem_keepFirst (l : List Rune) (r : Rune) : r ∈ keepFirst l ↔ r ∈ l := by
  induction l with
  | nil => simp [keepFirst]
  | cons x xs ih =>
    simp only [keepFirst, List.mem_cons, List.mem_filter, ih, decide_eq_true_eq]
    by_cases h : r = x <;> simp [h]

theorem nodup_keepFirst (l : List Rune) : (keepFirst l).Nodup := by
  induction l with
  | nil => simp [keepFirst]
  | cons x xs ih =>
    simp only [keepFirst, List.nodup_cons, List.mem_filter, decide_eq_true_eq]
    exact ⟨fun h => h.2 rfl, ih.filter _⟩

theorem keepFirst_sublist (l : List Rune) : (keepFirst l).Sublist l := by
  induction l with
  | nil => simp [keepFirst]
  | cons x xs ih =>
    simp only [keepFirst]
    exact ((List.filter_sublist _).trans ih).cons₂ x

theorem keepFirst_of_nodup (l : List Rune) (h : l.Nodup) : keepFirst l = l := by
  induction l with
  | nil => rfl
  | cons x xs ih =>
    rw [List.nodup_cons] at h
    simp only [keepFirst, ih h.2]
    congr 1
    rw [List.filter_eq_self]
    intro y hy
    have : y ≠ x := fun e => h.1 (e ▸ hy)
    simp [this]

theorem keepFirst_idem (l : List Rune) : keepFirst (keepFirst l) = keepFirst l :=
  keepFirst_of_nodup _ (nodup_keepFirst l)

theorem keepFirst_append (a b : List Rune) :
    keepFirst (a ++ b) = keepFirst a ++ keepFirst (b.filter (fun x => decide (x ∉ a))) := by
  induction a with
  | nil => simp [keepFirst]
  | cons x xs ih =>
    simp only [List.cons_append, keepFirst, ih, List.filter_append, List.append_eq]
    congr 2
    rw [← keepFirst_filter, List.filter_filter]
    congr 1
    apply List.filter_congr
    intro y _
    simp only [List.mem_cons, not_or, Bool.decide_and, Bool.and_comm]

/-- The loop of `uniqueRunes` appends to `out` the first occurrences of the runes not
yet seen. -/
theorem uniqueRunesLoop_eq (rs : List Rune) (seen : RuneSet) (out : List Rune) :
    uniqueRunesLoop rs seen out = out ++ keepFirst (rs.filter (fun r => !seen r)) := by
  induction rs generalizing seen out with
  | nil => simp [uniqueRunesLoop, keepFirst]
  | cons r rs ih =>
    by_cases h : seen r = true
    · simp only [uniqueRunesLoop, h, Bool.not_true, Bool.false_eq_true, if_false, ih]
      rw [List.filter_cons_of_neg (by simp [h])]
    · have h' : seen r = false := by simpa using h
      simp only [uniqueRunesLoop, h', Bool.not_false, if_true, ih]
      rw [List.filter_cons_of_pos (by simp [h']), List.append_assoc]
      simp only [List.singleton_append, keepFirst]
      congr 2
      rw [← keepFirst_filter, List.filter_filter]
      congr 1
      apply List.filter_congr
      intro y _
      unfold setTrue
      by_cases e : y = r <;> simp [e, h']

/-- Function `uniqueRunes` keeps the first occurrence of each rune of the string. -/
theorem uniqueRunes_eq (s : GoString) : uniqueRunes s = keepFirst (rangeRunes s) := by
  unfold uniqueRunes
  rw [uniqueRunesLoop_eq]
  simp [emptySet]

theorem toSetLoop_apply (rs : List Rune) (m : RuneSet) (x : Rune) :
    toSetLoop rs m x = (m x || decide (x ∈ rs)) := by
  induction rs generalizing m with
  | nil => simp [toSetLoop]
  | cons r rs ih =>
    simp only [toSetLoop, ih, setTrue, List.mem_cons]
    by_cases e : x = r <;> simp [e]

/-- Function `toSet` holds exactly the runes of the string. -/
theorem toSet_apply (s : GoString) (x : Rune) : toSet s x = decide (x ∈ rangeRunes s) := by
  unfold toSet
  rw [toSetLoop_apply]
  simp [emptySet]

theorem subtractRunesLoop_eq (remove : RuneSet) (base out : List Rune) :
    subtractRunesLoop remove base out = out ++ base.filter (fun r => !remove r) := by
  induction base generalizing out with
  | nil => simp [subtractRunesLoop]
  | cons r rs ih =>
    by_cases h : remove r = true
    · simp only [subtractRunesLoop, h, Bool.not_true, Bool.false_eq_true, if_false, ih]
      rw [List.filter_cons_of_neg (by simp [h])]
    · have h' : remove r = false := by simpa using h
      simp only [subtractRunesLoop, h', Bool.not_false, if_true, ih]
      rw [List.filter_cons_of_pos (by simp [h']), List.append_assoc]
      rfl

/-- Function `subtractRunes` keeps, in order, the runes of `base` not in the set. -/
theorem subtractRunes_eq (base : List Rune) (remove : RuneSet) :
    subtractRunes base remove = base.filter (fun r => !remove r) := by
  unfold subtractRunes
  rw [subtractRunesLoop_eq]
  rfl


theorem indexOf_filter_lt (p : Rune → Bool) (l : List Rune) (a b : Rune)
    (ha : p a = true) (hb : p b = true) (hal : a ∈ l) (hbl : b ∈ l) :
    (List.indexOf a (l.filter p) < List.indexOf b (l.filter p) ↔
      List.indexOf a l < List.indexOf b l) := by
  induction l with
  | nil => simp at hal
  | cons x xs ih =>
    by_cases hx : p x = true
    · rw [List.filter_cons_of_pos hx]
      by_cases eax : x = a
      · subst eax
        by_cases ebx : x = b
        · subst ebx; simp
        · rw [List.indexOf_cons_self, List.indexOf_cons_self, List.indexOf_cons_ne _ ebx,
            List.indexOf_cons_ne _ ebx]
          simp
      · by_cases ebx : x = b
        · subst ebx
          simp
        · rw [List.indexOf_cons_ne _ eax, List.indexOf_cons_ne _ ebx, List.indexOf_cons_ne _ eax,
            List.indexOf_cons_ne _ ebx]
          have hal' : a ∈ xs := by
            rcases List.mem_cons.1 hal with h | h
            · exact absurd h.symm eax
            · exact h
          have hbl' : b ∈ xs := by
            rcases List.mem_cons.1 hbl with h | h
            · exact absurd h.symm ebx
            · exact h
          have := ih hal' hbl'
          omega
    · rw [List.filter_cons_of_neg hx]
      have eax : x ≠ a := fun e => hx (e ▸ ha)
      have ebx : x ≠ b := fun e => hx (e ▸ hb)
      rw [List.indexOf_cons_ne _ eax, List.indexOf_cons_ne _ ebx]
      have hal' : a ∈ xs := by
        rcases List.mem_cons.1 hal with h | h
        · exact absurd h.symm eax
        · exact h
      have hbl' : b ∈ xs := by
        rcases List.mem_cons.1 hbl with h | h
        · exact absurd h.symm ebx
        · exact h
      have := ih hal' hbl'
      omega

/-- In the deduplicated list two runes stand in the order of their first occurrences
in the original list. -/
theorem indexOf_keepFirst_lt (l : List Rune) (a b : Rune) (hal : a ∈ l) (hbl : b ∈ l) :
    (List.indexOf a (keepFirst l) < List.indexOf b (keepFirst l) ↔
      List.indexOf a l < List.indexOf b l) := by
  induction l with
  | nil => simp at hal
  | cons x xs ih =>
    simp only [keepFirst]
    by_cases eax : x = a
    · subst eax
      by_cases ebx : x = b
      · subst ebx; simp
      · rw [List.indexOf_cons_self, List.indexOf_cons_self, List.indexOf_cons_ne _ ebx,
          List.indexOf_cons_ne _ ebx]
        simp
    · by_cases ebx : x = b
      · subst ebx
        simp
      · rw [List.indexOf_cons_ne _ eax, List.indexOf_cons_ne _ ebx, List.indexOf_cons_ne _ eax,
          List.indexOf_cons_ne _ ebx]
        have hal' : a ∈ xs := by
          rcases List.mem_cons.1 hal with h | h
          · exact absurd h.symm eax
          · exact h
        have hbl' : b ∈ xs := by
          rcases List.mem_cons.1 hbl with h | h
          · exact absurd h.symm ebx
          · exact h
        have h1 := indexOf_filter_lt (fun y => decide (y ≠ x)) (keepFirst xs) a b
          (by simpa using Ne.symm eax) (by simpa using Ne.symm ebx)
          ((mem_keepFirst xs a).2 hal') ((mem_keepFirst xs b).2 hbl')
        have h2 := ih hal' hbl'
        omega

/-! ## Sampling -/

theorem picked_succ (charset : List Rune) (rd : RandReader) (start k : Nat) :
    picked charset rd start (k + 1) =
      charset.getD (rd start).index 0 :: picked charset rd (start + 1) k := by
  unfold picked
  rw [List.range_succ_eq_map]
  simp only [List.map_cons, List.map_map, Nat.add_zero, List.cons.injEq, true_and]
  apply List.map_congr_left
  intro j _
  simp only [Function.comp, Nat.succ_eq_add_one]
  rw [Nat.add_assoc, Nat.add_comm 1 j]

theorem picked_mem (charset : List Rune) (rd : RandReader) (start k : Nat)
    (h : DrawsBelow rd start k charset.length) : ∀ r ∈ picked charset rd start k, r ∈ charset := by
  intro r hr
  unfold picked at hr
  rw [List.mem_map] at hr
  obtain ⟨j, hj, rfl⟩ := hr
  obtain ⟨d, hd, hlt⟩ := h j (List.mem_range.1 hj)
  rw [hd]
  simp only [Draw.index]
  rw [List.getD_eq_getElem _ _ hlt]
  exact List.getElem_mem _

theorem picked_length (charset : List Rune) (rd : RandReader) (start k : Nat) :
    (picked charset rd start k).length = k := by
  simp [picked]

/-- With `k` successful in-range draws ahead, the loop of `genPassword` returns
without error the bytes written so far followed by the encodings of the selected
characters, having made `k` calls with the bound `len(charset)`. -/
theorem genPasswordLoop_ok (charset : List Rune) (rd : RandReader) (k : Nat) (b : GoString)
    (st : RandState) (h : DrawsBelow rd st.calls k charset.length) :
    genPasswordLoop charset rd k b st =
      some (⟨b ++ runesToString (picked charset rd st.calls k), none⟩,
        ⟨st.calls + k, st.bounds ++ List.replicate k (charset.length : Int)⟩) := by
  induction k generalizing b st with
  | zero => simp [genPasswordLoop, picked, runesToString]
  | succ k ih =>
    obtain ⟨d, hd, hlt⟩ := h 0 (Nat.succ_pos k)
    rw [Nat.add_zero] at hd
    have hpos : ¬ ((charset.length : Int) ≤ 0) := by omega
    have hget : charset[d]? = some (charset.getD d 0) := by
      rw [List.getElem?_eq_getElem hlt, List.getD_eq_getElem _ _ hlt]
    have hnext : DrawsBelow rd (st.calls + 1) k charset.length := by
      intro j hj
      have := h (j + 1) (Nat.succ_lt_succ hj)
      rwa [Nat.add_assoc, Nat.add_comm 1 j]
    simp only [genPasswordLoop, randInt, if_neg hpos, hd, hget]
    rw [ih _ _ hnext, picked_succ, hd]
    simp only [Draw.index, runesToString, List.append_assoc, List.replicate_succ,
      List.singleton_append, Nat.add_assoc, Nat.add_comm 1 k]

/-! ## Newline stripping -/

theorem replaceAll_single (c : Nat) (s : GoString) :
    replaceAll s [c] [] = s.filter (fun b => decide (b ≠ c)) := by
  unfold replaceAll
  induction s with
  | nil => rfl
  | cons b t ih =>
    by_cases h : b = c
    · subst h
      simp [replaceAllFrom, List.isPrefixOf, ih]
    · have h' : ¬ c = b := fun e => h e.symm
      simp [replaceAllFrom, List.isPrefixOf, ih, h, h']

theorem replaceAll_crlf_filter (p : Nat → Bool) (h13 : p 13 = false) (h10 : p 10 = false) :
    ∀ (n : Nat) (s : GoString), s.length ≤ n →
      (replaceAll s [13, 10] []).filter p = s.filter p := by
  intro n
  induction n with
  | zero =>
    intro s hs
    have : s = [] := List.length_eq_zero.1 (Nat.le_zero.1 hs)
    subst this
    rfl
  | succ n ih =>
    intro s hs
    rcases s with _ | ⟨b, t⟩
    · rfl
    · unfold replaceAll at ih ⊢
      by_cases hp : List.isPrefixOf [13, 10] (b :: t) = true
      · rcases t with _ | ⟨c, t2⟩
        · simp [List.isPrefixOf] at hp
        · simp only [List.isPrefixOf, Bool.and_true, Bool.and_eq_true, beq_iff_eq] at hp
          obtain ⟨rfl, rfl⟩ := hp
          have hl : t2.length ≤ n := by simp only [List.length_cons] at hs; omega
          have := ih t2 hl
          simp only [replaceAllFrom, List.isPrefixOf, beq_self_eq_true, Bool.and_self, if_true,
            List.nil_append, List.length_cons, List.length_nil, Nat.add_sub_cancel]
          rw [this, List.filter_cons_of_neg (by simp [h13]), List.filter_cons_of_neg (by simp [h10])]
      · have hl : t.length ≤ n := by simp only [List.length_cons] at hs; omega
        have := ih t hl
        simp only [replaceAllFrom, hp, Bool.false_eq_true, if_false, List.filter_cons, this]

/-- Function `stripNewlines` deletes every `\r` and every `\n` and keeps all other
bytes in order. -/
theorem stripNewlines_eq (s : GoString) :
    stripNewlines s = s.filter (fun b => decide (b ≠ 13 ∧ b ≠ 10)) := by
  unfold stripNewlines
  simp only [replaceAll_single, List.filter_filter]
  rw [replaceAll_crlf_filter _ (by simp) (by simp) s.length s (Nat.le_refl _)]
  apply List.filter_congr
  intro b _
  simp

/-! ## The default alphabet -/

theorem defaultCharset_ascii : ∀ b ∈ defaultCharset, b < 0x80 := by decide

theorem rangeRunes_defaultCharset : rangeRunes defaultCharset = defaultAlphabet := by decide

theorem defaultAlphabet_nodup : defaultAlphabet.Nodup := by decide

theorem defaultAlphabet_length : defaultAlphabet.length = 62 := by decide

theorem uniqueRunes_defaultCharset : uniqueRunes defaultCharset = defaultAlphabet := by
  rw [uniqueRunes_eq, rangeRunes_defaultCharset, keepFirst_of_nodup _ defaultAlphabet_nodup]

theorem rangeRunes_default_append (provided : GoString) :
    rangeRunes (defaultCharset ++ provided) = defaultAlphabet ++ rangeRunes provided := by
  rw [rangeRunes_ascii_append _ _ defaultCharset_ascii]
  congr 1

/-! ## The candidate set in each mode -/

theorem buildCharset_add (del : Bool) (provided : GoString) :
    buildCharset true del provided =
      defaultAlphabet ++
        keepFirst ((rangeRunes provided).filter (fun r => decide (r ∉ defaultAlphabet))) := by
  simp only [buildCharset, if_true]
  rw [uniqueRunes_eq, rangeRunes_default_append, keepFirst_append,
    keepFirst_of_nodup _ defaultAlphabet_nodup]

theorem buildCharset_del (provided : GoString) :
    buildCharset false true provided =
      defaultAlphabet.filter (fun r => decide (r ∉ rangeRunes provided)) := by
  simp only [buildCharset, Bool.false_eq_true, if_false, if_true]
  rw [subtractRunes_eq, uniqueRunes_defaultCharset]
  apply List.filter_congr
  intro r _
  rw [toSet_apply]
  simp

theorem buildCharset_replace (provided : GoString) (h : provided ≠ []) :
    buildCharset false false provided = keepFirst (rangeRunes provided) := by
  simp only [buildCharset, Bool.false_eq_true, if_false, ne_eq, h, not_false_eq_true, if_true]
  rw [uniqueRunes_eq]

theorem buildCharset_default : buildCharset false false [] = defaultAlphabet := by
  simp only [buildCharset, Bool.false_eq_true, if_false, ne_eq, not_true_eq_false]
  exact uniqueRunes_defaultCharset

/-- In every mode the candidate set has no repeated rune. -/
theorem buildCharset_nodup (add del : Bool) (provided : GoString) :
    (buildCharset add del provided).Nodup := by
  cases add with
  | true =>
    simp only [buildCharset, if_true]
    rw [uniqueRunes_eq]; exact nodup_keepFirst _
  | false =>
    cases del with
    | true => rw [buildCharset_del]; exact defaultAlphabet_nodup.filter _
    | false =>
      by_cases h : provided = []
      · subst h; rw [buildCharset_default]; exact defaultAlphabet_nodup
      · rw [buildCharset_replace _ h]; exact nodup_keepFirst _

theorem defaultAlphabet_valid : ∀ r ∈ defaultAlphabet, ValidRune r := by decide

/-- In every mode the candidate set consists of Unicode scalar values. -/
theorem buildCharset_valid (add del : Bool) (provided : GoString) :
    ∀ r ∈ buildCharset add del provided, ValidRune r := by
  intro r hr
  cases add with
  | true =>
    simp only [buildCharset, if_true] at hr
    rw [uniqueRunes_eq, mem_keepFirst] at hr
    exact rangeRunes_valid _ r hr
  | false =>
    cases del with
    | true =>
      rw [buildCharset_del] at hr
      exact defaultAlphabet_valid r (List.mem_filter.1 hr).1
    | false =>
      by_cases h : provided = []
      · subst h; rw [buildCharset_default] at hr; exact defaultAlphabet_valid r hr
      · rw [buildCharset_replace _ h, mem_keepFirst] at hr
        exact rangeRunes_valid _ r hr

/-- Whatever the draws, a password returned without error is the bytes written so far
followed by the encodings of `k` members of the candidate set. -/
theorem genPasswordLoop_sound (charset : List Rune) (rd : RandReader) (k : Nat) :
    ∀ (b : GoString) (st : RandState) (pw : GoString) (st2 : RandState),
      genPasswordLoop charset rd k b st = some (⟨pw, none⟩, st2) →
      ∃ picks : List Rune, picks.length = k ∧ (∀ r ∈ picks, r ∈ charset) ∧
        pw = b ++ runesToString picks := by
  induction k with
  | zero =>
    intro b st pw st2 h
    simp only [genPasswordLoop, Option.some.injEq, Prod.mk.injEq, GenResult.mk.injEq,
      and_true] at h
    exact ⟨[], rfl, by simp, by simp [runesToString, h.1]⟩
  | succ k ih =>
    intro b st pw st2 h
    simp only [genPasswordLoop, randInt] at h
    split_ifs at h with hmax
    cases hd : rd st.calls with
    | failure e => simp [hd] at h
    | value n =>
      simp only [hd] at h
      cases hg : charset[n]? with
      | none => simp [hg] at h
      | some r =>
        simp only [hg] at h
        obtain ⟨picks, hl, hm, hpw⟩ := ih _ _ _ _ h
        refine ⟨r :: picks, by simp [hl], ?_, ?_⟩
        · intro x hx
          rcases List.mem_cons.1 hx with rfl | hx
          · exact List.getElem?_mem hg
          · exact hm x hx
        · rw [hpw, List.append_assoc]; rfl


theorem providedOf_eq (stdin : GoString) (args : List GoString) :
    providedOf stdin args =
      (stdin ++ joinArgs args).filter (fun b => decide (b ≠ 13 ∧ b ≠ 10)) := by
  unfold providedOf
  simp only [stripNewlines_eq]
  by_cases h : joinArgs args = []
  · simp [h]
  · simp [h]

theorem indices_holding_length (l : List Rune) (c : Rune) :
    ((List.range l.length).filter (fun i => decide (l[i]? = some c))).length = l.count c := by
  induction l with
  | nil => simp
  | cons x xs ih =>
    rw [List.length_cons, List.range_succ_eq_map, List.filter_cons, List.filter_map,
      List.count_cons]
    have hcomp : ((fun i => decide ((x :: xs)[i]? = some c)) ∘ Nat.succ) =
        (fun i => decide (xs[i]? = some c)) := by
      funext i
      simp
    rw [hcomp]
    by_cases h : x = c
    · subst h
      simp [ih]
    · have h' : ¬ (x == c) = true := by simpa using h
      simp [ih, h]

/-! ## Properties of the sampler and of the charset builder -/

/-- C1: for every non-empty candidate set `C` of characters (Unicode scalar values),
every length `L ≥ 1` and every sequence of successful draws below `|C|`,
`genPassword(L, C)` returns without error a string of exactly `L` code points, each
a member of `C`. -/
theorem genPassword_length_members (L : Int) (C : List Rune) (rd : RandReader)
    (st : RandState) (hL : 1 ≤ L) (_hne : C ≠ []) (hC : ∀ r ∈ C, ValidRune r)
    (hd : ∀ i, ∃ d, rd i = Draw.value d ∧ d < C.length) :
    ∃ pw st2, genPassword L C rd st = some (⟨pw, none⟩, st2) ∧
      ((rangeRunes pw).length : Int) = L ∧ ∀ r ∈ rangeRunes pw, r ∈ C := by
  have hb : DrawsBelow rd st.calls L.toNat C.length := fun j _ => hd (st.calls + j)
  have hmem := picked_mem C rd st.calls L.toNat hb
  refine ⟨runesToString (picked C rd st.calls L.toNat),
    ⟨st.calls + L.toNat, st.bounds ++ List.replicate L.toNat (C.length : Int)⟩, ?_, ?_, ?_⟩
  · unfold genPassword
    rw [if_neg (by omega), genPasswordLoop_ok C rd L.toNat [] st hb, List.nil_append]
  · rw [rangeRunes_runesToString _ (fun r hr => hC r (hmem r hr)), picked_length]
    omega
  · rw [rangeRunes_runesToString _ (fun r hr => hC r (hmem r hr))]
    exact hmem

/-- Instance of C1: three characters `x`, `y`, `z`, length 4, draws `0, 1, 2, 0, …`. -/
theorem genPassword_length_members_witness :
    (1 : Int) ≤ 4 ∧ ([120, 121, 122] : List Rune) ≠ [] ∧
    (∀ r ∈ ([120, 121, 122] : List Rune), ValidRune r) ∧
    ∃ pw st2, genPassword 4 [120, 121, 122] (fun i => Draw.value (i % 3)) RandState.init
        = some (⟨pw, none⟩, st2) ∧
      ((rangeRunes pw).length : Int) = 4 ∧ ∀ r ∈ rangeRunes pw, r ∈ ([120, 121, 122] : List Rune) :=
  ⟨by decide, by decide, by decide,
    genPassword_length_members 4 [120, 121, 122] (fun i => Draw.value (i % 3)) RandState.init
      (by decide) (by decide) (by decide)
      (fun i => ⟨i % 3, rfl, Nat.mod_lt i (by decide)⟩)⟩

/-- C2: in subtract mode the candidate set is the default alphabet, in its order,
without the characters that occur in `provided`; so it shares no character with
`provided`, lies within the default alphabet, and keeps every default character that
does not occur in `provided`; with `provided = "0123456789"` it is the 52 letters. -/
theorem subtract_mode_charset (provided : GoString) :
    buildCharset false true provided =
        defaultAlphabet.filter (fun r => decide (r ∉ rangeRunes provided)) ∧
      (∀ r ∈ buildCharset false true provided, r ∉ rangeRunes provided) ∧
      (∀ r ∈ buildCharset false true provided, r ∈ defaultAlphabet) ∧
      (∀ r ∈ defaultAlphabet, r ∉ rangeRunes provided →
        r ∈ buildCharset false true provided) ∧
      rangeRunes defaultCharset = defaultAlphabet ∧
      buildCharset false true (lit "0123456789") =
        (lit "abcdefghijklmnopqrstuvwxyzABCDEFGHIJKLMNOPQRSTUVWXYZ").map Int.ofNat ∧
      (buildCharset false true (lit "0123456789")).length = 52 := by
  rw [buildCharset_del]
  refine ⟨rfl, ?_, ?_, ?_, rangeRunes_defaultCharset, by decide, by decide⟩
  · intro r hr
    simpa using (List.mem_filter.1 hr).2
  · intro r hr
    exact (List.mem_filter.1 hr).1
  · intro r hr hn
    exact List.mem_filter.2 ⟨hr, by simpa using hn⟩

/-- C3: in augment mode the candidate set contains every character of the default
alphabet and every character of `provided`, and contains no character twice. -/
theorem augment_mode_contents (del : Bool) (provided : GoString) :
    (∀ r ∈ defaultAlphabet, r ∈ buildCharset true del provided) ∧
      (∀ r ∈ rangeRunes provided, r ∈ buildCharset true del provided) ∧
      (buildCharset true del provided).Nodup := by
  refine ⟨?_, ?_, buildCharset_nodup true del provided⟩
  · intro r hr
    rw [buildCharset_add]
    exact List.mem_append_left _ hr
  · intro r hr
    rw [buildCharset_add]
    by_cases h : r ∈ defaultAlphabet
    · exact List.mem_append_left _ h
    · apply List.mem_append_right
      rw [mem_keepFirst]
      exact List.mem_filter.2 ⟨hr, by simpa using h⟩

/-- C4: in augment mode the candidate set is the 62 characters of the default alphabet
in their order, followed by the characters of `provided` outside the default alphabet,
each once, in the order of their first occurrence; when every character of `provided`
is in the default alphabet (as for `"abc"`) it is the default alphabet unchanged. -/
theorem augment_mode_order (del : Bool) (provided : GoString) :
    buildCharset true del provided =
        defaultAlphabet ++
          keepFirst ((rangeRunes provided).filter (fun r => decide (r ∉ defaultAlphabet))) ∧
      defaultAlphabet.length = 62 ∧
      rangeRunes defaultCharset = defaultAlphabet ∧
      ((∀ r ∈ rangeRunes provided, r ∈ defaultAlphabet) →
        buildCharset true del provided = defaultAlphabet) ∧
      buildCharset true del (lit "abc") = defaultAlphabet := by
  refine ⟨buildCharset_add del provided, defaultAlphabet_length, rangeRunes_defaultCharset,
    ?_, ?_⟩
  · intro h
    rw [buildCharset_add]
    have : (rangeRunes provided).filter (fun r => decide (r ∉ defaultAlphabet)) = [] := by
      rw [List.filter_eq_nil_iff]
      intro r hr
      simpa using h r hr
    rw [this]
    simp [keepFirst]
  · cases del <;> decide

/-- C5: in replace mode (no flag, `provided` non-empty) the candidate set is the
first-occurrence deduplication of `provided`: a character is in it exactly when it
occurs in `provided`, so a default character that does not occur there is absent.
With `provided = "xyz"` it is `x, y, z`, and every password `genPassword` returns
from it consists of those three characters only. -/
theorem replace_mode_charset (provided : GoString) (h : provided ≠ []) :
    buildCharset false false provided = keepFirst (rangeRunes provided) ∧
      (∀ r, r ∈ buildCharset false false provided ↔ r ∈ rangeRunes provided) ∧
      (∀ r ∈ defaultAlphabet, r ∉ rangeRunes provided →
        r ∉ buildCharset false false provided) ∧
      buildCharset false false (lit "xyz") = [120, 121, 122] ∧
      (∀ (L : Int) (rd : RandReader) (st st2 : RandState) (pw : GoString),
        genPassword L (buildCharset false false (lit "xyz")) rd st = some (⟨pw, none⟩, st2) →
        ((rangeRunes pw).length : Int) = L ∧
          ∀ r ∈ rangeRunes pw, r = 120 ∨ r = 121 ∨ r = 122) := by
  rw [buildCharset_replace _ h]
  refine ⟨rfl, fun r => mem_keepFirst _ r, ?_, by decide, ?_⟩
  · intro r _ hn hm
    exact hn ((mem_keepFirst _ r).1 hm)
  · intro L rd st st2 pw hg
    have hxyz : buildCharset false false (lit "xyz") = [120, 121, 122] := by decide
    rw [hxyz] at hg
    unfold genPassword at hg
    split_ifs at hg with hneg
    obtain ⟨picks, hl, hm, hpw⟩ := genPasswordLoop_sound _ rd _ _ _ _ _ hg
    have hv : ∀ r ∈ picks, ValidRune r := fun r hr =>
      (by decide : ∀ x ∈ ([120, 121, 122] : List Rune), ValidRune x) r (hm r hr)
    rw [hpw, List.nil_append, rangeRunes_runesToString _ hv]
    refine ⟨by rw [hl]; omega, ?_⟩
    intro r hr
    simpa using hm r hr

/-- Instance of C5 at `provided = "xyz"`. -/
theorem replace_mode_charset_witness :
    lit "xyz" ≠ [] ∧
      buildCharset false false (lit "xyz") = keepFirst (rangeRunes (lit "xyz")) :=
  ⟨by decide, (replace_mode_charset (lit "xyz") (by decide)).1⟩

/-- C6: for every `provided` and every mode, the candidate set built by the switch of
`main` has pairwise distinct characters. -/
theorem charset_distinct (add del : Bool) (provided : GoString) :
    (buildCharset add del provided).Nodup ∧
      ∀ i j, i < j → j < (buildCharset add del provided).length →
        (buildCharset add del provided)[i]? ≠ (buildCharset add del provided)[j]? := by
  have hn := buildCharset_nodup add del provided
  refine ⟨hn, ?_⟩
  intro i j hij hj he
  have := (List.nodup_iff_injective_get.1 hn)
  rw [List.getElem?_eq_getElem (by omega),
    List.getElem?_eq_getElem hj] at he
  have e := @this ⟨i, by omega⟩ ⟨j, hj⟩ (by simpa using he)
  simp only [Fin.mk.injEq] at e
  omega

/-- C7: when the raw input (piped data followed by the positional arguments) holds
only `\r` and `\n` bytes, or nothing, and neither flag is set, `provided` is empty and
the candidate set is the default alphabet
`abcdefghijklmnopqrstuvwxyzABCDEFGHIJKLMNOPQRSTUVWXYZ0123456789`: 62 distinct
characters, which deduplication leaves unchanged. -/
theorem default_fallback (stdin : GoString) (args : List GoString)
    (h : ∀ b ∈ stdin ++ joinArgs args, b = 13 ∨ b = 10) :
    providedOf stdin args = [] ∧
      buildCharset false false (providedOf stdin args) =
        (lit "abcdefghijklmnopqrstuvwxyzABCDEFGHIJKLMNOPQRSTUVWXYZ0123456789").map Int.ofNat ∧
      (buildCharset false false (providedOf stdin args)).length = 62 ∧
      (buildCharset false false (providedOf stdin args)).Nodup ∧
      uniqueRunes defaultCharset = rangeRunes defaultCharset := by
  have hp : providedOf stdin args = [] := by
    rw [providedOf_eq, List.filter_eq_nil_iff]
    intro b hb
    rcases h b hb with rfl | rfl <;> simp
  rw [hp, buildCharset_default]
  exact ⟨rfl, by decide, defaultAlphabet_length, defaultAlphabet_nodup,
    by rw [uniqueRunes_defaultCharset, rangeRunes_defaultCharset]⟩

/-- Instance of C7: piped input `"\r\n\n"` and one positional argument `"\n\r"`. -/
theorem default_fallback_witness :
    (∀ b ∈ ([13, 10, 10] : GoString) ++ joinArgs [[10, 13]], b = 13 ∨ b = 10) ∧
      buildCharset false false (providedOf [13, 10, 10] [[10, 13]]) =
        (lit "abcdefghijklmnopqrstuvwxyzABCDEFGHIJKLMNOPQRSTUVWXYZ0123456789").map Int.ofNat :=
  ⟨by decide, (default_fallback [13, 10, 10] [[10, 13]] (by decide)).2.1⟩

/-- C8: deduplication is idempotent: `uniqueRunes` of the string formed from
`uniqueRunes(s)` is `uniqueRunes(s)`; and deduplicating the string formed from a
candidate set built in any mode gives that candidate set back. -/
theorem uniqueRunes_idempotent (s : GoString) :
    uniqueRunes (runesToString (uniqueRunes s)) = uniqueRunes s ∧
      ∀ (add del : Bool),
        uniqueRunes (runesToString (buildCharset add del s)) = buildCharset add del s := by
  constructor
  · have hv : ∀ r ∈ uniqueRunes s, ValidRune r := by
      intro r hr
      rw [uniqueRunes_eq, mem_keepFirst] at hr
      exact rangeRunes_valid s r hr
    rw [uniqueRunes_eq (runesToString (uniqueRunes s)), rangeRunes_runesToString _ hv,
      uniqueRunes_eq, keepFirst_idem]
  · intro add del
    rw [uniqueRunes_eq, rangeRunes_runesToString _ (buildCharset_valid add del s),
      keepFirst_of_nodup _ (buildCharset_nodup add del s)]

/-- C9: `uniqueRunes(s)` keeps each character of `s` at its first occurrence and drops
every later occurrence: it is a subsequence of the characters of `s`, has no
duplicates, contains exactly the characters that occur in `s`, and of two characters
of the output one precedes the other exactly when its first occurrence in `s` comes
earlier. -/
theorem uniqueRunes_first_occurrence (s : GoString) :
    uniqueRunes s = keepFirst (rangeRunes s) ∧
      (uniqueRunes s).Sublist (rangeRunes s) ∧
      (uniqueRunes s).Nodup ∧
      (∀ r, r ∈ uniqueRunes s ↔ r ∈ rangeRunes s) ∧
      (∀ a b, a ∈ uniqueRunes s → b ∈ uniqueRunes s →
        (List.indexOf a (uniqueRunes s) < List.indexOf b (uniqueRunes s) ↔
          List.indexOf a (rangeRunes s) < List.indexOf b (rangeRunes s))) := by
  rw [uniqueRunes_eq]
  refine ⟨rfl, keepFirst_sublist _, nodup_keepFirst _, fun r => mem_keepFirst _ r, ?_⟩
  intro a b ha hb
  exact indexOf_keepFirst_lt _ a b ((mem_keepFirst _ a).1 ha) ((mem_keepFirst _ b).1 hb)

/-- C10: for every candidate set `C` produced by the builder with `n = |C| ≥ 1`, the
map from a drawn index to `C[index]` is a bijection between `[0, n)` and the
characters of `C`: no character is held at two indices, every character is held at
one, so a uniform index selects each character with chance `1/n`; and `genPassword`
writes `C[d]` for the drawn index `d` itself, with no reduction of `d`. -/
theorem uniform_selection (add del : Bool) (provided : GoString)
    (hne : buildCharset add del provided ≠ []) :
    1 ≤ (buildCharset add del provided).length ∧
      (∀ i j, i < (buildCharset add del provided).length →
        j < (buildCharset add del provided).length →
        (buildCharset add del provided)[i]? = (buildCharset add del provided)[j]? → i = j) ∧
      (∀ c, c ∈ buildCharset add del provided ↔
        ∃ i, i < (buildCharset add del provided).length ∧
          (buildCharset add del provided)[i]? = some c) ∧
      (∀ c ∈ buildCharset add del provided,
        selectProb (buildCharset add del provided) c =
          1 / ((buildCharset add del provided).length : ℚ)) ∧
      (∀ (rd : RandReader) (st : RandState) (d : Nat),
        rd st.calls = Draw.value d → d < (buildCharset add del provided).length →
        ∃ c, (buildCharset add del provided)[d]? = some c ∧
          genPassword 1 (buildCharset add del provided) rd st =
            some (⟨appendRune c, none⟩,
              ⟨st.calls + 1,
                st.bounds ++ [((buildCharset add del provided).length : Int)]⟩)) := by
  have hn := buildCharset_nodup add del provided
  generalize buildCharset add del provided = C at hne hn
  refine ⟨?_, ?_, ?_, ?_, ?_⟩
  · exact Nat.succ_le_of_lt (List.length_pos.2 hne)
  · intro i j hi hj he
    rw [List.getElem?_eq_getElem hi, List.getElem?_eq_getElem hj] at he
    have hinj := List.nodup_iff_injective_get.1 hn
    have e := @hinj ⟨i, hi⟩ ⟨j, hj⟩ (by simpa using he)
    simpa using e
  · intro c
    rw [List.mem_iff_getElem?]
    constructor
    · rintro ⟨i, hi⟩
      have hlt : i < C.length := by
        by_contra hge
        rw [List.getElem?_eq_none (by omega)] at hi
        cases hi
      exact ⟨i, hlt, hi⟩
    · rintro ⟨i, _, hi⟩
      exact ⟨i, hi⟩
  · intro c hc
    unfold selectProb
    rw [indices_holding_length, List.count_eq_one_of_mem hn hc]
    simp
  · intro rd st d hd hlt
    refine ⟨C[d], List.getElem?_eq_getElem hlt, ?_⟩
    have hb : DrawsBelow rd st.calls 1 C.length := by
      intro j hj
      have : j = 0 := by omega
      subst this
      exact ⟨d, hd, hlt⟩
    unfold genPassword
    rw [if_neg (by decide)]
    have := genPasswordLoop_ok C rd 1 [] st hb
    simp only [Int.toNat_one]
    rw [this]
    simp [picked, runesToString, hd, Draw.index, List.getElem?_eq_getElem hlt]

/-- Instance of C10 at the candidate set of replace mode with `provided = "xyz"`. -/
theorem uniform_selection_witness :
    buildCharset false false (lit "xyz") ≠ [] ∧
      ∀ c ∈ buildCharset false false (lit "xyz"),
        selectProb (buildCharset false false (lit "xyz")) c =
          1 / ((buildCharset false false (lit "xyz")).length : ℚ) :=
  ⟨by decide, (uniform_selection false false (lit "xyz") (by decide)).2.2.2.1⟩

/-! ## Runs of `main` -/

theorem drawsBelow_mono {rd : RandReader} {start k k2 n : Nat} (h : DrawsBelow rd start k n)
    (hk : k2 ≤ k) : DrawsBelow rd start k2 n :=
  fun j hj => h j (Nat.lt_of_lt_of_le hj hk)

theorem drawsBelow_shift {rd : RandReader} {start a k n : Nat}
    (h : DrawsBelow rd start (a + k) n) : DrawsBelow rd (start + a) k n := by
  intro j hj
  have := h (a + j) (by omega)
  rwa [← Nat.add_assoc] at this

/-- With successful in-range draws for a whole password, `genPassword` returns it
without error, having made `length` calls with the bound `len(charset)`. -/
theorem genPassword_ok (L : Int) (C : List Rune) (rd : RandReader) (st : RandState)
    (hL : 0 ≤ L) (hd : DrawsBelow rd st.calls L.toNat C.length) :
    genPassword L C rd st =
      some (⟨runesToString (picked C rd st.calls L.toNat), none⟩,
        ⟨st.calls + L.toNat, st.bounds ++ List.replicate L.toNat (C.length : Int)⟩) := by
  unfold genPassword
  rw [if_neg (by omega), genPasswordLoop_ok C rd L.toNat [] st hd, List.nil_append]

/-- When the draw number `j` of the loop fails after `j` successful in-range draws,
the loop returns the error with the empty string. -/
theorem genPasswordLoop_fail (C : List Rune) (rd : RandReader) (hpos : 0 < C.length)
    (e : GoError) (j : Nat) :
    ∀ (k : Nat) (b : GoString) (st : RandState), j < k →
      DrawsBelow rd st.calls j C.length → rd (st.calls + j) = Draw.failure e →
      genPasswordLoop C rd k b st =
        some (⟨[], some e⟩,
          ⟨st.calls + j + 1, st.bounds ++ List.replicate (j + 1) (C.length : Int)⟩) := by
  induction j with
  | zero =>
    intro k b st hk _ hf
    obtain ⟨k, rfl⟩ : ∃ k2, k = k2 + 1 := ⟨k - 1, by omega⟩
    have hmax : ¬ ((C.length : Int) ≤ 0) := by omega
    rw [Nat.add_zero] at hf
    simp only [genPasswordLoop, randInt, if_neg hmax, hf]
    rfl
  | succ j ih =>
    intro k b st hk hd hf
    obtain ⟨k, rfl⟩ : ∃ k2, k = k2 + 1 := ⟨k - 1, by omega⟩
    have hmax : ¬ ((C.length : Int) ≤ 0) := by omega
    obtain ⟨d, hd0, hlt⟩ := hd 0 (Nat.succ_pos j)
    rw [Nat.add_zero] at hd0
    have hget : C[d]? = some (C.getD d 0) := by
      rw [List.getElem?_eq_getElem hlt, List.getD_eq_getElem _ _ hlt]
    simp only [genPasswordLoop, randInt, if_neg hmax, hd0, hget]
    have hnext : DrawsBelow rd (st.calls + 1) j C.length := by
      intro i hi
      have := hd (i + 1) (Nat.succ_lt_succ hi)
      rwa [Nat.add_assoc, Nat.add_comm 1 i]
    have hf2 : rd (st.calls + 1 + j) = Draw.failure e := by
      rw [Nat.add_assoc, Nat.add_comm 1 j]; exact hf
    rw [ih k _ ⟨st.calls + 1, st.bounds ++ [(C.length : Int)]⟩ (by omega) hnext hf2]
    simp only [List.append_assoc, List.replicate_succ, List.singleton_append, Nat.add_assoc,
      Nat.add_comm 1 j]

theorem stdoutOf_append (a b : List Event) : stdoutOf (a ++ b) = stdoutOf a ++ stdoutOf b := by
  induction a with
  | nil => rfl
  | cons ev a ih =>
    cases ev <;> simp [stdoutOf, ih]

theorem stdoutOf_okEvents (L : Int) (C : List Rune) (pws : List GoString) :
    stdoutOf (okEvents L C pws) = printLines pws := by
  induction pws with
  | nil => rfl
  | cons pw rest ih => simp [okEvents, stdoutOf, printLines, ih]

theorem passwordsFrom_length (C : List Rune) (rd : RandReader) (len start k : Nat) :
    (passwordsFrom C rd len start k).length = k := by
  induction k generalizing start with
  | zero => rfl
  | succ k ih => simp [passwordsFrom, ih]

/-- With successful in-range draws for `m` whole passwords, the loop of `main` prints
them all and ends with exit code 0. -/
theorem mainLoop_ok (L : Int) (C : List Rune) (rd : RandReader) (hL : 0 ≤ L) :
    ∀ (m : Nat) (st : RandState) (tr : List Event),
      DrawsBelow rd st.calls (m * L.toNat) C.length →
      mainLoop L C rd m st tr =
        some ⟨0, tr ++ okEvents L C (passwordsFrom C rd L.toNat st.calls m)⟩ := by
  intro m
  induction m with
  | zero => intro st tr _; simp [mainLoop, passwordsFrom, okEvents]
  | succ m ih =>
    intro st tr hd
    have h1 : DrawsBelow rd st.calls L.toNat C.length :=
      drawsBelow_mono hd (by rw [Nat.succ_mul]; omega)
    have h2 : DrawsBelow rd (st.calls + L.toNat) (m * L.toNat) C.length :=
      drawsBelow_shift (by rw [Nat.add_comm, ← Nat.succ_mul]; exact hd)
    simp only [mainLoop, genPassword_ok L C rd st hL h1]
    rw [ih _ _ h2]
    simp [passwordsFrom, okEvents]

/-- When the draw number `j` of password number `k` fails, all draws before it
succeeding in range, the loop of `main` prints the `k` completed passwords, reports
the error and ends with exit code 1. -/
theorem mainLoop_fail (L : Int) (C : List Rune) (rd : RandReader) (hL : 0 ≤ L)
    (hpos : 0 < C.length) (e : GoError) (j : Nat) (hj : j < L.toNat) :
    ∀ (k m : Nat) (st : RandState) (tr : List Event), k < m →
      DrawsBelow rd st.calls (k * L.toNat + j) C.length →
      rd (st.calls + (k * L.toNat + j)) = Draw.failure e →
      mainLoop L C rd m st tr =
        some ⟨1, tr ++ okEvents L C (passwordsFrom C rd L.toNat st.calls k) ++
          [Event.generate L C, Event.stderrLine (Diagnostic.randomSource e)]⟩ := by
  intro k
  induction k with
  | zero =>
    intro m st tr hm hd hf
    obtain ⟨m, rfl⟩ : ∃ m2, m = m2 + 1 := ⟨m - 1, by omega⟩
    rw [Nat.zero_mul, Nat.zero_add] at hd hf
    have hg : genPassword L C rd st = some (⟨[], some e⟩,
        ⟨st.calls + j + 1, st.bounds ++ List.replicate (j + 1) (C.length : Int)⟩) := by
      unfold genPassword
      rw [if_neg (by omega)]
      exact genPasswordLoop_fail C rd hpos e j _ _ st hj hd hf
    simp [mainLoop, hg, passwordsFrom, okEvents]
  | succ k ih =>
    intro m st tr hm hd hf
    obtain ⟨m, rfl⟩ : ∃ m2, m = m2 + 1 := ⟨m - 1, by omega⟩
    have h1 : DrawsBelow rd st.calls L.toNat C.length :=
      drawsBelow_mono hd (by rw [Nat.succ_mul]; omega)
    have h2 : DrawsBelow rd (st.calls + L.toNat) (k * L.toNat + j) C.length :=
      drawsBelow_shift (by
        have : L.toNat + (k * L.toNat + j) = (k + 1) * L.toNat + j := by
          rw [Nat.succ_mul]; omega
        rw [this]; exact hd)
    have hf2 : rd (st.calls + L.toNat + (k * L.toNat + j)) = Draw.failure e := by
      have : st.calls + L.toNat + (k * L.toNat + j) = st.calls + ((k + 1) * L.toNat + j) := by
        rw [Nat.succ_mul]; omega
      rw [this]; exact hf
    simp only [mainLoop, genPassword_ok L C rd st hL h1]
    rw [ih m _ _ (by omega) h2 hf2]
    simp [passwordsFrom, okEvents]

/-! ## ASCII bytes and ASCII runes -/

/-- The decoder yields a rune below 128 only by reading an ASCII byte as itself. -/
theorem decodeRune_ascii (b : Nat) (t : GoString) (h : (decodeRune (b :: t)).1 < 0x80) :
    (decodeRune (b :: t)).1 = (b : Int) ∧ b < 0x80 := by
  cases hf : first b with
  | ascii =>
    have := first_eq_ascii hf
    simpa [decodeRune, hf] using this
  | invalid =>
    simp [decodeRune, hf, RuneError] at h
  | multi sz lo hi =>
    have hm := first_eq_multi hf
    exfalso
    revert h
    rcases t with _ | ⟨s1, _ | ⟨s2, _ | ⟨s3, t3⟩⟩⟩ <;> simp only [decodeRune, hf, RuneError] <;>
      split_ifs <;> intro h <;> dsimp only at h <;>
      first
        | exact absurd h (by decide)
        | (norm_cast at h; omega)

theorem rangeRunesFrom_ascii_mem (k : Nat) (s : GoString) (r : Rune)
    (hr : r ∈ rangeRunesFrom k s) (hlt : r < 0x80) : ∃ b ∈ s, r = (b : Int) := by
  induction s generalizing k with
  | nil => simp [rangeRunesFrom] at hr
  | cons b t ih =>
    cases k with
    | zero =>
      simp only [rangeRunesFrom, List.mem_cons] at hr
      rcases hr with rfl | hr
      · exact ⟨b, List.mem_cons_self _ _, (decodeRune_ascii b t hlt).1⟩
      · obtain ⟨c, hc, e⟩ := ih _ hr
        exact ⟨c, List.mem_cons_of_mem _ hc, e⟩
    | succ k =>
      simp only [rangeRunesFrom] at hr
      obtain ⟨c, hc, e⟩ := ih _ hr
      exact ⟨c, List.mem_cons_of_mem _ hc, e⟩

/-- A rune below 128 visited by a `range` loop is a byte of the string. -/
theorem rangeRunes_ascii_mem (s : GoString) (b : Nat) (hb : b < 0x80)
    (hr : (b : Int) ∈ rangeRunes s) : b ∈ s := by
  obtain ⟨c, hc, e⟩ := rangeRunesFrom_ascii_mem 0 s _ hr (by exact_mod_cast hb)
  have : b = c := by exact_mod_cast e
  rw [this]; exact hc

/-- The encoding of a scalar value holds a byte below 128 only as the encoding of
that ASCII character. -/
theorem appendRune_ascii_byte (r : Rune) (hr : ValidRune r) (b : Nat) (hb : b ∈ appendRune r)
    (hlt : b < 0x80) : r = (b : Int) ∧ appendRune r = [b] := by
  obtain ⟨i, rfl⟩ : ∃ i : Nat, r = (i : Int) := ⟨r.toNat, (Int.toNat_of_nonneg hr.1).symm⟩
  rw [validRune_ofNat] at hr
  rw [appendRune_ofNat i (by omega)] at hb ⊢
  split_ifs at hb ⊢ <;> simp only [List.mem_cons, List.mem_singleton, List.not_mem_nil,
    or_false] at hb
  · subst hb; exact ⟨rfl, rfl⟩
  all_goals omega

theorem runesToString_ascii_byte (rs : List Rune) (hv : ∀ r ∈ rs, ValidRune r) (b : Nat)
    (hb : b ∈ runesToString rs) (hlt : b < 0x80) : (b : Int) ∈ rs := by
  induction rs with
  | nil => simp [runesToString] at hb
  | cons r rs ih =>
    simp only [runesToString, List.mem_append] at hb
    rcases hb with hb | hb
    · have := (appendRune_ascii_byte r (hv r (List.mem_cons_self _ _)) b hb hlt).1
      rw [this]; exact List.mem_cons_self _ _
    · exact List.mem_cons_of_mem _ (ih (fun x hx => hv x (List.mem_cons_of_mem _ hx)) hb)

/-- Deleting the bytes `\r` and `\n` from the encoding of scalar values deletes
exactly the characters `\r` and `\n`. -/
theorem filter_runesToString (rs : List Rune) (hv : ∀ r ∈ rs, ValidRune r) :
    (runesToString rs).filter (fun b => decide (b ≠ 13 ∧ b ≠ 10)) =
      runesToString (rs.filter (fun r => decide (r ≠ 13 ∧ r ≠ 10))) := by
  induction rs with
  | nil => rfl
  | cons r rs ih =>
    have hr := hv r (List.mem_cons_self _ _)
    have ih2 := ih (fun x hx => hv x (List.mem_cons_of_mem _ hx))
    simp only [runesToString, List.filter_append, ih2]
    by_cases hk : r ≠ 13 ∧ r ≠ 10
    · rw [List.filter_cons_of_pos (by simpa using hk)]
      simp only [runesToString]
      congr 1
      rw [List.filter_eq_self]
      intro b hb
      simp only [ne_eq, decide_eq_true_eq]
      constructor
      · intro e13
        have := (appendRune_ascii_byte r hr b hb (by omega)).1
        exact hk.1 (by rw [this, e13]; rfl)
      · intro e10
        have := (appendRune_ascii_byte r hr b hb (by omega)).1
        exact hk.2 (by rw [this, e10]; rfl)
    · rw [List.filter_cons_of_neg (by simpa using hk)]
      have hcases : r = 13 ∨ r = 10 := by
        by_cases e : r = 13
        · exact Or.inl e
        · right
          by_contra e2
          exact hk ⟨e, e2⟩
      rcases hcases with rfl | rfl
      · have : appendRune 13 = [13] := by decide
        rw [this]; simp
      · have : appendRune 10 = [10] := by decide
        rw [this]; simp

/-- With a non-empty candidate set and draws that are in range whenever they succeed,
the loop of `genPassword` does not panic. -/
theorem genPasswordLoop_no_panic (C : List Rune) (rd : RandReader) (hpos : 0 < C.length)
    (hd : DrawsInRange rd C.length) :
    ∀ (k : Nat) (b : GoString) (st : RandState),
      ∃ res, genPasswordLoop C rd k b st = some res := by
  intro k
  induction k with
  | zero => intro b st; exact ⟨_, rfl⟩
  | succ k ih =>
    intro b st
    have hmax : ¬ ((C.length : Int) ≤ 0) := by omega
    cases hdraw : rd st.calls with
    | failure e =>
      refine ⟨(⟨[], some e⟩, ⟨st.calls + 1, st.bounds ++ [(C.length : Int)]⟩), ?_⟩
      simp only [genPasswordLoop, randInt, if_neg hmax, hdraw]
    | value d =>
      have hlt := hd _ _ hdraw
      have hget : C[d]? = some C[d] := List.getElem?_eq_getElem hlt
      obtain ⟨res, hres⟩ := ih (b ++ appendRune C[d]) ⟨st.calls + 1, st.bounds ++ [(C.length : Int)]⟩
      exact ⟨res, by simp only [genPasswordLoop, randInt, if_neg hmax, hdraw, hget, hres]⟩

/-- With the same preconditions and a non-negative length, the loop of `main` does not
panic. -/
theorem mainLoop_no_panic (L : Int) (C : List Rune) (rd : RandReader) (hL : 0 ≤ L)
    (hpos : 0 < C.length) (hd : DrawsInRange rd C.length) :
    ∀ (k : Nat) (st : RandState) (tr : List Event), ∃ r, mainLoop L C rd k st tr = some r := by
  intro k
  induction k with
  | zero => intro st tr; exact ⟨_, rfl⟩
  | succ k ih =>
    intro st tr
    obtain ⟨res, hres⟩ := genPasswordLoop_no_panic C rd hpos hd L.toNat [] st
    have hg : genPassword L C rd st = some res := by
      unfold genPassword; rw [if_neg (by omega)]; exact hres
    obtain ⟨⟨pw, err⟩, st1⟩ := res
    cases err with
    | none =>
      obtain ⟨r, hr⟩ := ih st1 (tr ++ [Event.generate L C, Event.stdoutLine pw])
      exact ⟨r, by simp only [mainLoop, hg, hr]⟩
    | some e =>
      refine ⟨⟨1, tr ++ [Event.generate L C,
        Event.stderrLine (Diagnostic.randomSource e)]⟩, ?_⟩
      simp only [mainLoop, hg]

/-- Every step recorded by the loop of `main` beyond those already taken is a call of
`genPassword` with the loop's own length and candidate set, a printed line, or the
report of a random-source error. -/
theorem mainLoop_events (L : Int) (C : List Rune) (rd : RandReader) :
    ∀ (k : Nat) (st : RandState) (tr : List Event) (r : RunResult),
      mainLoop L C rd k st tr = some r →
      ∀ ev ∈ r.trace, ev ∈ tr ∨ ev = Event.generate L C ∨ (∃ pw, ev = Event.stdoutLine pw) ∨
        ∃ e, ev = Event.stderrLine (Diagnostic.randomSource e) := by
  intro k
  induction k with
  | zero =>
    intro st tr r h ev hev
    simp only [mainLoop, Option.some.injEq] at h
    subst h
    exact Or.inl hev
  | succ k ih =>
    intro st tr r h ev hev
    simp only [mainLoop] at h
    cases hg : genPassword L C rd st with
    | none => simp [hg] at h
    | some res =>
      obtain ⟨⟨pw, err⟩, st1⟩ := res
      cases err with
      | none =>
        simp only [hg] at h
        rcases ih _ _ _ h ev hev with h1 | h1 | h1 | h1
        · simp only [List.mem_append, List.mem_cons, List.mem_singleton, List.not_mem_nil,
            or_false] at h1
          rcases h1 with h1 | h1 | h1
          · exact Or.inl h1
          · exact Or.inr (Or.inl h1)
          · exact Or.inr (Or.inr (Or.inl ⟨pw, h1⟩))
        · exact Or.inr (Or.inl h1)
        · exact Or.inr (Or.inr (Or.inl h1))
        · exact Or.inr (Or.inr (Or.inr h1))
      | some e =>
        simp only [hg, Option.some.injEq] at h
        subst h
        simp only [List.mem_append, List.mem_cons, List.mem_singleton, List.not_mem_nil,
          or_false] at hev
        rcases hev with h1 | h1 | h1
        · exact Or.inl h1
        · exact Or.inr (Or.inl h1)
        · exact Or.inr (Or.inr (Or.inr ⟨e, h1⟩))

/-- A member of the candidate set is a default character or a character of
`provided`. -/
theorem buildCharset_mem (add del : Bool) (provided : GoString) (r : Rune)
    (hr : r ∈ buildCharset add del provided) :
    r ∈ defaultAlphabet ∨ r ∈ rangeRunes provided := by
  cases add with
  | true =>
    rw [buildCharset_add, List.mem_append, mem_keepFirst] at hr
    rcases hr with h | h
    · exact Or.inl h
    · exact Or.inr (List.mem_filter.1 h).1
  | false =>
    cases del with
    | true =>
      rw [buildCharset_del] at hr
      exact Or.inl (List.mem_filter.1 hr).1
    | false =>
      by_cases h : provided = []
      · subst h; rw [buildCharset_default] at hr; exact Or.inl hr
      · rw [buildCharset_replace _ h, mem_keepFirst] at hr
        exact Or.inr hr

/-- The candidate set built from stripped input holds neither `\n` nor `\r`. -/
theorem buildCharset_no_newline (add del : Bool) (stdin : GoString) (args : List GoString) :
    (10 : Int) ∉ buildCharset add del (providedOf stdin args) ∧
      (13 : Int) ∉ buildCharset add del (providedOf stdin args) := by
  have key : ∀ b : Nat, (b = 10 ∨ b = 13) →
      (b : Int) ∉ buildCharset add del (providedOf stdin args) := by
    intro b hb hmem
    rcases buildCharset_mem _ _ _ _ hmem with h | h
    · rcases hb with rfl | rfl
      · exact absurd h (by decide)
      · exact absurd h (by decide)
    · have hbyte := rangeRunes_ascii_mem _ b (by omega) h
      rw [providedOf_eq, List.mem_filter] at hbyte
      have := hbyte.2
      simp only [ne_eq, decide_eq_true_eq] at this
      omega
  exact ⟨key 10 (Or.inl rfl), key 13 (Or.inr rfl)⟩

theorem clamp_eq_max (x : Int) : (if x < 1 then 1 else x) = max x 1 := by
  split_ifs with h
  · rw [max_eq_right (by omega)]
  · rw [max_eq_left (by omega)]

/-- With the flags accepted and a non-empty candidate set, `main` runs its loop with
the clamped length and number. -/
theorem mainParsed_run (p : Parsed) (stdin : GoString) (rd : RandReader)
    (hflags : ¬ (p.add = true ∧ p.del = true))
    (hne : buildCharset p.add p.del (providedOf stdin p.args) ≠ []) :
    mainParsed p stdin rd =
      mainLoop (max p.length 1) (buildCharset p.add p.del (providedOf stdin p.args)) rd
        (max p.number 1).toNat RandState.init
        [Event.built (buildCharset p.add p.del (providedOf stdin p.args))] := by
  have h1 : (p.add && p.del) = false := by
    cases ha : p.add <;> cases hb : p.del <;> simp_all
  have h2 : ¬ (buildCharset p.add p.del (providedOf stdin p.args)).length = 0 := by
    intro h; exact hne (List.length_eq_zero.1 h)
  simp only [mainParsed, h1, Bool.false_eq_true, if_false, if_neg h2, clamp_eq_max]

theorem passwordsFrom_mem (C : List Rune) (rd : RandReader) (len : Nat) :
    ∀ (k start : Nat) (pw : GoString), pw ∈ passwordsFrom C rd len start k →
      ∃ s, pw = runesToString (picked C rd s len) := by
  intro k
  induction k with
  | zero => intro start pw h; simp [passwordsFrom] at h
  | succ k ih =>
    intro start pw h
    simp only [passwordsFrom, List.mem_cons] at h
    rcases h with rfl | h
    · exact ⟨start, rfl⟩
    · exact ih _ _ h

theorem printLines_count (pws : List GoString) (h : ∀ pw ∈ pws, 10 ∉ pw) :
    (printLines pws).count 10 = pws.length := by
  induction pws with
  | nil => rfl
  | cons pw rest ih =>
    have h1 : pw.count 10 = 0 := List.count_eq_zero.2 (h pw (List.mem_cons_self _ _))
    have h2 := ih (fun x hx => h x (List.mem_cons_of_mem _ hx))
    simp [printLines, List.count_append, h1, h2]

theorem rangeRunes_ne_nil (s : GoString) (h : s ≠ []) : rangeRunes s ≠ [] := by
  rcases s with _ | ⟨b, t⟩
  · exact absurd rfl h
  · simp [rangeRunes, rangeRunesFrom]

theorem keepFirst_ne_nil (l : List Rune) (h : l ≠ []) : keepFirst l ≠ [] := by
  rcases l with _ | ⟨x, xs⟩
  · exact absurd rfl h
  · simp [keepFirst]

/-! ## Long options -/

theorem splitFlagEq_no_eq (name : GoString) (h : 61 ∉ name) :
    splitFlagEq name = (name, [], false) := by
  unfold splitFlagEq
  simp only []
  rw [if_neg (by rw [List.indexOf_lt_length]; exact h)]

theorem splitFlagEq_eq (name value : GoString) (h : 61 ∉ name) :
    splitFlagEq (name ++ [61] ++ value) = (name, [61] ++ value, true) := by
  unfold splitFlagEq
  have hi : List.indexOf 61 (name ++ [61] ++ value) = name.length := by
    rw [List.append_assoc, List.indexOf_append_of_not_mem h]
    simp
  simp only [hi]
  rw [if_pos (by simp)]
  simp [List.append_assoc, List.take_left, List.drop_left]

theorem splitFlagEq_parts (s : GoString) :
    s = (splitFlagEq s).1 ++ (splitFlagEq s).2.1 ∧ 61 ∉ (splitFlagEq s).1 ∧
      ((splitFlagEq s).2.1 = [] ∨ ∃ v, (splitFlagEq s).2.1 = 61 :: v) := by
  unfold splitFlagEq
  simp only []
  split_ifs with h
  · refine ⟨(List.take_append_drop _ _).symm, ?_, Or.inr ?_⟩
    · intro hm
      dsimp only at hm
      have h1 := List.indexOf_lt_length.2 hm
      rw [List.length_take] at h1
      have h2 : List.indexOf 61 (List.take (List.indexOf 61 s) s) = List.indexOf 61 s := by
        conv_rhs => rw [← List.take_append_drop (List.indexOf 61 s) s]
        rw [List.indexOf_append_of_mem hm]
      omega
    · have hget := List.getElem_indexOf h
      refine ⟨s.drop (List.indexOf 61 s + 1), ?_⟩
      rw [List.drop_eq_getElem_cons h, hget]
  · have hn : 61 ∉ s := fun hm => h (List.indexOf_lt_length.2 hm)
    exact ⟨by simp, hn, Or.inl rfl⟩

/-- The loop of `normalizeLongOpts` appends to `out` one string for each argument, in
order. -/
theorem normalizeLongOptsLoop_eq (known : GoString → Bool) (args out : List GoString) :
    normalizeLongOptsLoop known args out = out ++ args.map (normalizeArg known) := by
  induction args generalizing out with
  | nil => simp [normalizeLongOptsLoop]
  | cons a rest ih =>
    simp only [normalizeLongOptsLoop, normalizeArg, List.map_cons]
    split_ifs <;> simp [ih]

theorem normalizeLongOpts_eq (args : List GoString) (known : GoString → Bool) :
    normalizeLongOpts args known = args.map (normalizeArg known) := by
  unfold normalizeLongOpts
  rw [normalizeLongOptsLoop_eq]
  rfl

theorem drop_two_dashes (t : GoString) : ([45, 45] ++ t).drop 2 = t := rfl

theorem isPrefixOf_two_dashes (t : GoString) : List.isPrefixOf [45, 45] ([45, 45] ++ t) = true := by
  simp [List.isPrefixOf]

theorem normalizeArg_name (known : GoString → Bool) (name : GoString) (h : 61 ∉ name)
    (hk : known name = true) : normalizeArg known ([45, 45] ++ name) = [45] ++ name := by
  unfold normalizeArg
  rw [if_pos (isPrefixOf_two_dashes name), drop_two_dashes]
  simp only [splitFlagEq_no_eq name h, hk, if_true, Bool.false_eq_true, if_false]

theorem normalizeArg_name_value (known : GoString → Bool) (name value : GoString)
    (h : 61 ∉ name) (hk : known name = true) :
    normalizeArg known ([45, 45] ++ name ++ [61] ++ value) = [45] ++ name ++ [61] ++ value := by
  have e : [45, 45] ++ name ++ [61] ++ value = [45, 45] ++ (name ++ [61] ++ value) := by
    simp [List.append_assoc]
  unfold normalizeArg
  rw [e, if_pos (isPrefixOf_two_dashes _), drop_two_dashes]
  simp only [splitFlagEq_eq name value h, hk, if_true]
  simp [List.append_assoc]

theorem normalizeArg_unknown (known : GoString → Bool) (name rest : GoString) (h : 61 ∉ name)
    (hrest : rest = [] ∨ ∃ v, rest = 61 :: v) (hk : known name = false) :
    normalizeArg known ([45, 45] ++ name ++ rest) = [45, 45] ++ name ++ rest := by
  have e : [45, 45] ++ name ++ rest = [45, 45] ++ (name ++ rest) := by
    simp [List.append_assoc]
  unfold normalizeArg
  rw [e, if_pos (isPrefixOf_two_dashes _), drop_two_dashes]
  rcases hrest with rfl | ⟨v, rfl⟩
  · rw [List.append_nil]
    simp only [splitFlagEq_no_eq name h, hk, Bool.false_eq_true, if_false]
  · have e2 : name ++ 61 :: v = name ++ [61] ++ v := by simp
    rw [e2]
    simp only [splitFlagEq_eq name v h, hk, Bool.false_eq_true, if_false]

theorem knownFlags_no_eq (name : GoString) (h : knownFlags name = true) : 61 ∉ name := by
  unfold knownFlags at h
  simp only [decide_eq_true_eq, List.mem_cons, List.mem_singleton, List.not_mem_nil,
    or_false] at h
  rcases h with rfl | rfl | rfl | rfl | rfl | rfl | rfl | rfl | rfl <;> decide

/-! ## Properties of the run, of the helpers and of the encoding -/

/-- C11: when both add and delete are set, whatever the length, the number and the
input, the run ends with exit code 2; the charset builder and `genPassword` are never
invoked and nothing is written to standard output. -/
theorem add_and_delete_rejected (p : Parsed) (stdin : GoString) (rd : RandReader)
    (h : p.add = true ∧ p.del = true) :
    mainParsed p stdin rd = some ⟨2, [Event.stderrLine Diagnostic.addAndDelete]⟩ ∧
      ∀ r, mainParsed p stdin rd = some r →
        r.exitCode = 2 ∧ (∀ C, Event.built C ∉ r.trace) ∧
          (∀ L C, Event.generate L C ∉ r.trace) ∧
          (∀ pw, Event.stdoutLine pw ∉ r.trace) ∧ stdoutOf r.trace = [] := by
  have hrun : mainParsed p stdin rd = some ⟨2, [Event.stderrLine Diagnostic.addAndDelete]⟩ := by
    simp [mainParsed, h.1, h.2]
  refine ⟨hrun, ?_⟩
  intro r hr
  rw [hrun, Option.some.injEq] at hr
  subst hr
  simp [stdoutOf]

/-- Instance of C11: both flags set, length 12, number 3, input `"abc"`. -/
theorem add_and_delete_rejected_witness :
    mainParsed ⟨12, 3, true, true, [lit "abc"]⟩ (lit "xyz") (fun i => Draw.value i) =
      some ⟨2, [Event.stderrLine Diagnostic.addAndDelete]⟩ :=
  (add_and_delete_rejected ⟨12, 3, true, true, [lit "abc"]⟩ (lit "xyz")
    (fun i => Draw.value i) ⟨rfl, rfl⟩).1

/-- C12: when the candidate set that was built is empty, the run ends with exit code 2
right after the construction and before any sampling: `genPassword` is never called
and no password is written to standard output. -/
theorem empty_charset_rejected (p : Parsed) (stdin : GoString) (rd : RandReader)
    (hflags : ¬ (p.add = true ∧ p.del = true))
    (hempty : (buildCharset p.add p.del (providedOf stdin p.args)).length = 0) :
    mainParsed p stdin rd =
        some ⟨2, [Event.built [], Event.stderrLine Diagnostic.emptyCharset]⟩ ∧
      ∀ r, mainParsed p stdin rd = some r →
        r.exitCode = 2 ∧ (∀ L C, Event.generate L C ∉ r.trace) ∧
          (∀ pw, Event.stdoutLine pw ∉ r.trace) ∧ stdoutOf r.trace = [] := by
  have h1 : (p.add && p.del) = false := by
    cases ha : p.add <;> cases hb : p.del <;> simp_all
  have hnil : buildCharset p.add p.del (providedOf stdin p.args) = [] :=
    List.length_eq_zero.1 hempty
  have hrun : mainParsed p stdin rd =
      some ⟨2, [Event.built [], Event.stderrLine Diagnostic.emptyCharset]⟩ := by
    simp [mainParsed, h1, hnil]
  refine ⟨hrun, ?_⟩
  intro r hr
  rw [hrun, Option.some.injEq] at hr
  subst hr
  simp [stdoutOf]

/-- Instance of C12: delete mode with the whole default alphabet as argument. -/
theorem empty_charset_rejected_witness :
    (buildCharset false true (providedOf [] [defaultCharset])).length = 0 ∧
      mainParsed ⟨8, 1, false, true, [defaultCharset]⟩ [] (fun i => Draw.value i) =
        some ⟨2, [Event.built [], Event.stderrLine Diagnostic.emptyCharset]⟩ :=
  ⟨by decide,
    (empty_charset_rejected ⟨8, 1, false, true, [defaultCharset]⟩ [] (fun i => Draw.value i)
      (by decide) (by decide)).1⟩

/-- C13: when draw `j` of password number `k` (0-based) fails, every draw before it
succeeding in range, `genPassword` returns that error together with the empty string,
and the run ends with exit code 1 having written to standard output exactly the `k`
passwords completed before. -/
theorem random_failure (p : Parsed) (stdin : GoString) (rd : RandReader) (L N : Int)
    (C : List Rune) (e : GoError) (k j : Nat)
    (hL : L = max p.length 1) (hN : N = max p.number 1)
    (hC : C = buildCharset p.add p.del (providedOf stdin p.args))
    (hflags : ¬ (p.add = true ∧ p.del = true)) (hne : C ≠ [])
    (hk : (k : Int) < N) (hj : (j : Int) < L)
    (hbefore : DrawsBelow rd 0 (k * L.toNat + j) C.length)
    (hfail : rd (k * L.toNat + j) = Draw.failure e) :
    (∀ st : RandState, st.calls = k * L.toNat →
        ∃ st2, genPassword L C rd st = some (⟨[], some e⟩, st2)) ∧
      mainParsed p stdin rd =
        some ⟨1, [Event.built C] ++ okEvents L C (passwordsFrom C rd L.toNat 0 k) ++
          [Event.generate L C, Event.stderrLine (Diagnostic.randomSource e)]⟩ ∧
      (∀ r, mainParsed p stdin rd = some r →
        r.exitCode = 1 ∧ stdoutOf r.trace = printLines (passwordsFrom C rd L.toNat 0 k)) ∧
      (passwordsFrom C rd L.toNat 0 k).length = k := by
  have hL0 : 0 ≤ L := by rw [hL]; exact le_trans (by decide) (le_max_right _ _)
  have hpos : 0 < C.length := List.length_pos.2 hne
  have hjn : j < L.toNat := by omega
  have hkn : k < N.toNat := by omega
  have hrun : mainParsed p stdin rd =
      some ⟨1, [Event.built C] ++ okEvents L C (passwordsFrom C rd L.toNat 0 k) ++
        [Event.generate L C, Event.stderrLine (Diagnostic.randomSource e)]⟩ := by
    rw [mainParsed_run p stdin rd hflags (hC ▸ hne), ← hC, ← hL, ← hN]
    exact mainLoop_fail L C rd hL0 hpos e j hjn k N.toNat RandState.init _ hkn
      (by simpa [RandState.init] using hbefore) (by simpa [RandState.init] using hfail)
  refine ⟨?_, hrun, ?_, passwordsFrom_length _ _ _ _ _⟩
  · intro st hst
    refine ⟨⟨st.calls + j + 1, st.bounds ++ List.replicate (j + 1) (C.length : Int)⟩, ?_⟩
    unfold genPassword
    rw [if_neg (by omega)]
    apply genPasswordLoop_fail C rd hpos e j _ _ st hjn
    · rw [hst]
      have := drawsBelow_shift hbefore
      rwa [Nat.zero_add] at this
    · rw [hst]; exact hfail
  · intro r hr
    rw [hrun, Option.some.injEq] at hr
    subst hr
    refine ⟨rfl, ?_⟩
    simp [stdoutOf_append, stdoutOf_okEvents, stdoutOf]

/-- Instance of C13: characters `x`, `y`, length 2, number 3; the fourth draw (draw 1
of password 1) fails, so one password, `xy`, is printed before the exit with code 1. -/
theorem random_failure_witness :
    mainParsed ⟨2, 3, false, false, [lit "xy"]⟩ []
        (fun i => if i = 3 then Draw.failure "entropy" else Draw.value (i % 2)) =
      some ⟨1, [Event.built [120, 121], Event.generate 2 [120, 121],
        Event.stdoutLine (lit "xy"), Event.generate 2 [120, 121],
        Event.stderrLine (Diagnostic.randomSource "entropy")]⟩ :=
  (random_failure ⟨2, 3, false, false, [lit "xy"]⟩ []
    (fun i => if i = 3 then Draw.failure "entropy" else Draw.value (i % 2))
    2 3 [120, 121] "entropy" 1 1 (by decide) (by decide) (by decide) (by decide) (by decide)
    (by decide) (by decide)
    (by
      intro j hj
      have h3 : j < 3 := hj
      interval_cases j
      · exact ⟨0, rfl, by decide⟩
      · exact ⟨1, rfl, by decide⟩
      · exact ⟨0, rfl, by decide⟩)
    rfl).2.1

/-- C14: with add and delete not both set, a non-empty candidate set and a random
source that never fails, the run ends with exit code 0 and standard output is exactly
`max(number, 1)` lines, each one password of exactly `max(length, 1)` characters that
holds no `\n` and no `\r`. -/
theorem successful_run (p : Parsed) (stdin : GoString) (rd : RandReader) (L N : Int)
    (C : List Rune)
    (hL : L = max p.length 1) (hN : N = max p.number 1)
    (hC : C = buildCharset p.add p.del (providedOf stdin p.args))
    (hflags : ¬ (p.add = true ∧ p.del = true)) (hne : C ≠ [])
    (hd : ∀ i, ∃ d, rd i = Draw.value d ∧ d < C.length) :
    ∃ pws : List GoString,
      mainParsed p stdin rd = some ⟨0, [Event.built C] ++ okEvents L C pws⟩ ∧
      stdoutOf ([Event.built C] ++ okEvents L C pws) = printLines pws ∧
      (pws.length : Int) = N ∧
      (printLines pws).count 10 = pws.length ∧
      ∀ pw ∈ pws, ((rangeRunes pw).length : Int) = L ∧ (∀ r ∈ rangeRunes pw, r ∈ C) ∧
        10 ∉ pw ∧ 13 ∉ pw := by
  have hL0 : 0 ≤ L := by rw [hL]; exact le_trans (by decide) (le_max_right _ _)
  have hN0 : 0 ≤ N := by rw [hN]; exact le_trans (by decide) (le_max_right _ _)
  have hall : ∀ s k, DrawsBelow rd s k C.length := fun s k j _ => hd (s + j)
  have hvalid : ∀ r ∈ C, ValidRune r := by rw [hC]; exact buildCharset_valid _ _ _
  have hnl := buildCharset_no_newline p.add p.del stdin p.args
  rw [← hC] at hnl
  have hpw : ∀ pw ∈ passwordsFrom C rd L.toNat 0 N.toNat,
      ((rangeRunes pw).length : Int) = L ∧ (∀ r ∈ rangeRunes pw, r ∈ C) ∧
        10 ∉ pw ∧ 13 ∉ pw := by
    intro pw hmem
    obtain ⟨s, rfl⟩ := passwordsFrom_mem C rd L.toNat _ _ pw hmem
    have hm := picked_mem C rd s L.toNat (hall s _)
    have hv : ∀ r ∈ picked C rd s L.toNat, ValidRune r := fun r hr => hvalid r (hm r hr)
    rw [rangeRunes_runesToString _ hv, picked_length]
    refine ⟨by omega, hm, ?_, ?_⟩
    · intro h10
      exact hnl.1 (hm _ (runesToString_ascii_byte _ hv 10 h10 (by decide)))
    · intro h13
      exact hnl.2 (hm _ (runesToString_ascii_byte _ hv 13 h13 (by decide)))
  refine ⟨passwordsFrom C rd L.toNat 0 N.toNat, ?_, ?_, ?_, ?_, hpw⟩
  · rw [mainParsed_run p stdin rd hflags (hC ▸ hne), ← hC, ← hL, ← hN]
    rw [mainLoop_ok L C rd hL0 N.toNat RandState.init _ (hall _ _)]
    rfl
  · rw [stdoutOf_append, stdoutOf_okEvents]
    rfl
  · rw [passwordsFrom_length]; omega
  · exact printLines_count _ (fun pw h => (hpw pw h).2.2.1)

/-- Instance of C14: replace mode with `"xy"`, length 0 (clamped to 1), number 2. -/
theorem successful_run_witness :
    ∃ pws : List GoString,
      mainParsed ⟨0, 2, false, false, [lit "xy"]⟩ [] (fun i => Draw.value (i % 2)) =
        some ⟨0, [Event.built [120, 121]] ++ okEvents 1 [120, 121] pws⟩ ∧
      stdoutOf ([Event.built [120, 121]] ++ okEvents 1 [120, 121] pws) = printLines pws ∧
      (pws.length : Int) = 2 ∧
      (printLines pws).count 10 = pws.length ∧
      ∀ pw ∈ pws, ((rangeRunes pw).length : Int) = 1 ∧
        (∀ r ∈ rangeRunes pw, r ∈ ([120, 121] : List Rune)) ∧ 10 ∉ pw ∧ 13 ∉ pw :=
  successful_run ⟨0, 2, false, false, [lit "xy"]⟩ [] (fun i => Draw.value (i % 2)) 1 2
    [120, 121] (by decide) (by decide) (by decide) (by decide) (by decide)
    (fun i => ⟨i % 2, rfl, Nat.mod_lt i (by decide)⟩)

/-- C15: `stripNewlines(s)` holds no `\n` and no `\r`, and it is `s` with every `\r`
and every `\n` deleted and everything else kept in order; a line ending that the
first replacement puts together is removed by the next two; and on the encoding of
characters it deletes exactly the characters `\r` and `\n`. -/
theorem stripNewlines_removes_line_endings (s : GoString) :
    10 ∉ stripNewlines s ∧ 13 ∉ stripNewlines s ∧
      stripNewlines s = s.filter (fun b => decide (b ≠ 13 ∧ b ≠ 10)) ∧
      (stripNewlines s).Sublist s ∧
      (∀ b ∈ s, b ≠ 13 → b ≠ 10 → b ∈ stripNewlines s) ∧
      replaceAll (lit "a\r\r\n\nb") [13, 10] [] = lit "a\r\nb" ∧
      stripNewlines (lit "a\r\r\n\nb") = lit "ab" ∧
      (∀ cs : List Rune, (∀ r ∈ cs, ValidRune r) →
        rangeRunes (stripNewlines (runesToString cs)) =
          cs.filter (fun r => decide (r ≠ 13 ∧ r ≠ 10))) := by
  rw [stripNewlines_eq]
  refine ⟨?_, ?_, rfl, List.filter_sublist _, ?_, by decide, by decide, ?_⟩
  · simp [List.mem_filter]
  · simp [List.mem_filter]
  · intro b hb h13 h10
    exact List.mem_filter.2 ⟨hb, by simp [h13, h10]⟩
  · intro cs hv
    rw [stripNewlines_eq, filter_runesToString cs hv]
    exact rangeRunes_runesToString _ (fun r hr => hv r (List.mem_filter.1 hr).1)

/-- C16: character identity is by code point. For a string that is the UTF-8 encoding
of characters `cs`, the `range` loop visits exactly `cs`, so `uniqueRunes` returns the
first-occurrence deduplication of `cs`, `toSet` holds exactly the members of `cs`, and
`subtractRunes` removes exactly them: a multi-byte character gives one candidate, and
two characters sharing a byte stay two candidates. `genPassword` writes whole
characters: its output decodes to `length` code points, the characters drawn. -/
theorem code_point_identity (cs : List Rune) (hcs : ∀ r ∈ cs, ValidRune r) :
    rangeRunes (runesToString cs) = cs ∧
      uniqueRunes (runesToString cs) = keepFirst cs ∧
      (∀ x, toSet (runesToString cs) x = decide (x ∈ cs)) ∧
      (∀ base : List Rune, subtractRunes base (toSet (runesToString cs)) =
        base.filter (fun r => decide (r ∉ cs))) ∧
      uniqueRunes [0xE3, 0x81, 0x82] = [0x3042] ∧
      uniqueRunes [0xC3, 0xA9, 0xC3, 0xA8, 0xC3, 0xA9] = [0xE9, 0xE8] ∧
      (∀ (L : Int) (rd : RandReader) (st : RandState), 0 ≤ L →
        DrawsBelow rd st.calls L.toNat (uniqueRunes (runesToString cs)).length →
        ∃ pw st2, genPassword L (uniqueRunes (runesToString cs)) rd st =
            some (⟨pw, none⟩, st2) ∧
          rangeRunes pw = picked (uniqueRunes (runesToString cs)) rd st.calls L.toNat ∧
          ((rangeRunes pw).length : Int) = L) := by
  have hr := rangeRunes_runesToString cs hcs
  have hu : uniqueRunes (runesToString cs) = keepFirst cs := by rw [uniqueRunes_eq, hr]
  refine ⟨hr, hu, ?_, ?_, by decide, by decide, ?_⟩
  · intro x; rw [toSet_apply, hr]
  · intro base
    rw [subtractRunes_eq]
    apply List.filter_congr
    intro r _
    rw [toSet_apply, hr]
    simp
  · intro L rd st hL hd
    rw [hu] at hd ⊢
    have hm := picked_mem (keepFirst cs) rd st.calls L.toNat hd
    have hv : ∀ r ∈ picked (keepFirst cs) rd st.calls L.toNat, ValidRune r :=
      fun r h => hcs r ((mem_keepFirst cs r).1 (hm r h))
    refine ⟨_, _, genPassword_ok L _ rd st hL hd, rangeRunes_runesToString _ hv, ?_⟩
    rw [rangeRunes_runesToString _ hv, picked_length]
    omega

/-- Instance of C16: the characters `é`, `あ`, `é`. -/
theorem code_point_identity_witness :
    (∀ r ∈ ([0xE9, 0x3042, 0xE9] : List Rune), ValidRune r) ∧
      uniqueRunes (runesToString [0xE9, 0x3042, 0xE9]) = keepFirst [0xE9, 0x3042, 0xE9] :=
  ⟨by decide, (code_point_identity [0xE9, 0x3042, 0xE9] (by decide)).2.1⟩

/-- C17: for a length `L ≥ 0`, a non-empty candidate set `C` of characters and
successful draws `d_0, d_1, …` below `|C|`, `genPassword(L, C)` makes exactly `L`
draws, each with the bound `|C|`, and returns without error a password whose `i`-th
character is `C[d_i]` for every `i < L`. -/
theorem sampling_algorithm (L : Int) (C : List Rune) (rd : RandReader) (st : RandState)
    (hL : 0 ≤ L) (_hne : C ≠ []) (hC : ∀ r ∈ C, ValidRune r)
    (hd : DrawsBelow rd st.calls L.toNat C.length) :
    ∃ pw st2, genPassword L C rd st = some (⟨pw, none⟩, st2) ∧
      st2.calls = st.calls + L.toNat ∧
      st2.bounds = st.bounds ++ List.replicate L.toNat (C.length : Int) ∧
      ((rangeRunes pw).length : Int) = L ∧
      ∀ i d, i < L.toNat → rd (st.calls + i) = Draw.value d →
        (rangeRunes pw)[i]? = C[d]? ∧ d < C.length := by
  have hm := picked_mem C rd st.calls L.toNat hd
  have hv : ∀ r ∈ picked C rd st.calls L.toNat, ValidRune r := fun r h => hC r (hm r h)
  refine ⟨_, _, genPassword_ok L C rd st hL hd, rfl, rfl, ?_, ?_⟩
  · rw [rangeRunes_runesToString _ hv, picked_length]; omega
  · intro i d hi hdraw
    obtain ⟨d2, hd2, hlt⟩ := hd i hi
    rw [hdraw] at hd2
    injection hd2 with hdd
    subst hdd
    refine ⟨?_, hlt⟩
    rw [rangeRunes_runesToString _ hv]
    simp [picked, hi, hdraw, Draw.index, List.getElem?_eq_getElem hlt]

/-- Instance of C17: characters `x`, `y`, `z`, length 4, draws `0, 1, 2, 0`. -/
theorem sampling_algorithm_witness :
    ∃ pw st2, genPassword 4 [120, 121, 122] (fun i => Draw.value (i % 3)) RandState.init =
        some (⟨pw, none⟩, st2) ∧
      st2.calls = RandState.init.calls + (4 : Int).toNat ∧
      st2.bounds = RandState.init.bounds ++
        List.replicate (4 : Int).toNat ((([120, 121, 122] : List Rune).length : Nat) : Int) ∧
      ((rangeRunes pw).length : Int) = 4 ∧
      ∀ i d, i < (4 : Int).toNat →
        (fun i => Draw.value (i % 3)) (RandState.init.calls + i) = Draw.value d →
        (rangeRunes pw)[i]? = ([120, 121, 122] : List Rune)[d]? ∧
          d < ([120, 121, 122] : List Rune).length :=
  sampling_algorithm 4 [120, 121, 122] (fun i => Draw.value (i % 3)) RandState.init
    (by decide) (by decide) (by decide)
    (fun j _ => ⟨(RandState.init.calls + j) % 3, rfl, Nat.mod_lt _ (by decide)⟩)

/-- C18: `normalizeLongOpts` returns a list of the same length and order in which an
argument `--name` with a known name has become `-name`, an argument `--name=value`
with a known name has become `-name=value`, and every other argument (one that does
not start with `--`, a bare `--`, or one whose name is not known) is unchanged; the
names in the table of `main` hold no `=`, and the empty name is not among them. -/
theorem normalizeLongOpts_spec (args : List GoString) (known : GoString → Bool) :
    (normalizeLongOpts args known).length = args.length ∧
      (∀ (i : Nat) (a : GoString), args[i]? = some a →
        ∃ o, (normalizeLongOpts args known)[i]? = some o ∧
          (∀ name, a = [45, 45] ++ name → 61 ∉ name → known name = true →
            o = [45] ++ name) ∧
          (∀ name value, a = [45, 45] ++ name ++ [61] ++ value → 61 ∉ name →
            known name = true → o = [45] ++ name ++ [61] ++ value) ∧
          (List.isPrefixOf [45, 45] a = false → o = a) ∧
          (∀ name rest, a = [45, 45] ++ name ++ rest → 61 ∉ name →
            (rest = [] ∨ ∃ v, rest = 61 :: v) → known name = false → o = a)) ∧
      (∀ a, List.isPrefixOf [45, 45] a = true →
        ∃ name rest, a = [45, 45] ++ name ++ rest ∧ 61 ∉ name ∧
          (rest = [] ∨ ∃ v, rest = 61 :: v)) ∧
      knownFlags [] = false ∧
      (∀ name, knownFlags name = true → 61 ∉ name) ∧
      normalizeLongOpts
          [lit "passgen", lit "--length=12", lit "--add", lit "--", lit "--foo", lit "-n",
            lit "--n=3", lit "abc"] knownFlags =
        [lit "passgen", lit "-length=12", lit "-add", lit "--", lit "--foo", lit "-n",
          lit "-n=3", lit "abc"] := by
  rw [normalizeLongOpts_eq]
  refine ⟨List.length_map _ _, ?_, ?_, by decide, knownFlags_no_eq, by decide⟩
  · intro i a hi
    refine ⟨normalizeArg known a, by rw [List.getElem?_map, hi]; rfl, ?_, ?_, ?_, ?_⟩
    · rintro name rfl h hk
      exact normalizeArg_name known name h hk
    · rintro name value rfl h hk
      exact normalizeArg_name_value known name value h hk
    · intro hp
      unfold normalizeArg
      rw [if_neg (by rw [hp]; exact Bool.false_ne_true)]
    · rintro name rest rfl h hrest hk
      exact normalizeArg_unknown known name rest h hrest hk
  · intro a hp
    have hpre : [45, 45] ++ a.drop 2 = a := by
      have := List.prefix_iff_eq_append.1 (List.isPrefixOf_iff_prefix.1 hp)
      simpa using this
    obtain ⟨h1, h2, h3⟩ := splitFlagEq_parts (a.drop 2)
    refine ⟨(splitFlagEq (a.drop 2)).1, (splitFlagEq (a.drop 2)).2.1, ?_, h2, h3⟩
    rw [List.append_assoc, ← h1, hpre]

/-- C19: with add and delete not both set, the candidate set is empty exactly when
delete is set and every character of the default alphabet occurs in `provided`; in
augment, replace and default mode it is never empty. -/
theorem empty_charset_characterisation (add del : Bool) (provided : GoString)
    (hflags : ¬ (add = true ∧ del = true)) :
    (buildCharset add del provided = [] ↔
        del = true ∧ ∀ r ∈ defaultAlphabet, r ∈ rangeRunes provided) ∧
      (del = false → buildCharset add del provided ≠ []) ∧
      defaultAlphabet.length = 62 := by
  have hdefault : defaultAlphabet ≠ [] := by decide
  refine ⟨?_, ?_, defaultAlphabet_length⟩
  · cases add with
    | true =>
      cases del with
      | true => exact absurd ⟨rfl, rfl⟩ hflags
      | false =>
        rw [buildCharset_add]
        constructor
        · intro h
          exact absurd (List.append_eq_nil.1 h).1 hdefault
        · intro h
          exact absurd h.1 (by decide)
    | false =>
      cases del with
      | true =>
        rw [buildCharset_del, List.filter_eq_nil_iff]
        constructor
        · intro h
          exact ⟨rfl, fun r hr => by simpa using h r hr⟩
        · intro h r hr
          simpa using h.2 r hr
      | false =>
        constructor
        · intro h
          exfalso
          by_cases hp : provided = []
          · subst hp
            rw [buildCharset_default] at h
            exact hdefault h
          · rw [buildCharset_replace _ hp] at h
            exact keepFirst_ne_nil _ (rangeRunes_ne_nil _ hp) h
        · intro h
          exact absurd h.1 (by decide)
  · intro hdel
    subst hdel
    cases add with
    | true =>
      rw [buildCharset_add]
      intro h
      exact hdefault (List.append_eq_nil.1 h).1
    | false =>
      by_cases hp : provided = []
      · subst hp
        rw [buildCharset_default]
        exact hdefault
      · rw [buildCharset_replace _ hp]
        exact keepFirst_ne_nil _ (rangeRunes_ne_nil _ hp)

/-- Instance of C19: delete mode, `provided` the whole default alphabet followed by
`!`: the candidate set is empty. -/
theorem empty_charset_characterisation_witness :
    buildCharset false true (defaultCharset ++ lit "!") = [] ↔
      (true = true ∧ ∀ r ∈ defaultAlphabet, r ∈ rangeRunes (defaultCharset ++ lit "!")) :=
  (empty_charset_characterisation false true (defaultCharset ++ lit "!") (by decide)).1

/-- C20: on every path of `main` that reaches `genPassword` the arguments satisfy
`length ≥ 1` and `len(charset) ≥ 1`; under these preconditions, with draws that are
below `len(charset)` whenever they succeed, `genPassword` does not panic: the size
given to `Grow` is not negative, the bound given to `rand.Int` is positive and every
`charset[n]` is in range; so no run of `main` panics. -/
theorem sampling_safety (p : Parsed) (stdin : GoString) (rd : RandReader) :
    (∀ r, mainParsed p stdin rd = some r →
        ∀ L C, Event.generate L C ∈ r.trace → 1 ≤ L ∧ 1 ≤ C.length) ∧
      (∀ (L : Int) (C : List Rune) (rd2 : RandReader) (st : RandState),
        1 ≤ L → 1 ≤ C.length → DrawsInRange rd2 C.length →
        ∃ res, genPassword L C rd2 st = some res) ∧
      (DrawsInRange rd (buildCharset p.add p.del (providedOf stdin p.args)).length →
        ∃ r, mainParsed p stdin rd = some r) := by
  refine ⟨?_, ?_, ?_⟩
  · intro r hr L C hev
    by_cases hflags : p.add = true ∧ p.del = true
    · have := (show mainParsed p stdin rd =
          some ⟨2, [Event.stderrLine Diagnostic.addAndDelete]⟩ by
        simp [mainParsed, hflags.1, hflags.2])
      rw [this, Option.some.injEq] at hr
      subst hr
      simp at hev
    · by_cases hne : buildCharset p.add p.del (providedOf stdin p.args) = []
      · have h1 : (p.add && p.del) = false := by
          cases ha : p.add <;> cases hb : p.del <;> simp_all
        have := (show mainParsed p stdin rd =
            some ⟨2, [Event.built [], Event.stderrLine Diagnostic.emptyCharset]⟩ by
          simp [mainParsed, h1, hne])
        rw [this, Option.some.injEq] at hr
        subst hr
        simp at hev
      · rw [mainParsed_run p stdin rd hflags hne] at hr
        rcases mainLoop_events _ _ rd _ _ _ r hr _ hev with h | h | ⟨pw, h⟩ | ⟨e, h⟩
        · simp at h
        · injection h with h1 h2
          subst h1 h2
          exact ⟨le_max_right _ _, Nat.succ_le_of_lt (List.length_pos.2 hne)⟩
        · cases h
        · cases h
  · intro L C rd2 st hL hC hd
    unfold genPassword
    rw [if_neg (by omega)]
    exact genPasswordLoop_no_panic C rd2 (by omega) hd _ _ _
  · intro hd
    by_cases hflags : p.add = true ∧ p.del = true
    · exact ⟨⟨2, [Event.stderrLine Diagnostic.addAndDelete]⟩,
        by simp [mainParsed, hflags.1, hflags.2]⟩
    · by_cases hne : buildCharset p.add p.del (providedOf stdin p.args) = []
      · have h1 : (p.add && p.del) = false := by
          cases ha : p.add <;> cases hb : p.del <;> simp_all
        exact ⟨⟨2, [Event.built [], Event.stderrLine Diagnostic.emptyCharset]⟩,
          by simp [mainParsed, h1, hne]⟩
      · rw [mainParsed_run p stdin rd hflags hne]
        exact mainLoop_no_panic _ _ rd (le_trans (by decide) (le_max_right _ _))
          (List.length_pos.2 hne) hd _ _ _

end Passgen
